import Mathlib

/-!
Verification development for the `vscode-uri` URI value type.

The embedding models `src/lib/index.ts` (the `Uri` class: parsing,
validation, `with`, `from`, `file`, `fsPath`, `toString`/`_asFormatted`)
and the `Utils.joinPath` helper, over JavaScript strings modelled as
`List Char` (Unicode scalar values).  JavaScript's `encodeURIComponent`
and `decodeURIComponent` are modelled per ECMA-262 (UTF-8 percent
escaping with two upper-case hex digits; decoding validates hex digits
and UTF-8 byte structure and fails - modelled as `none` - on malformed
input).  Case mapping (`toLowerCase`) is modelled on ASCII.
-/

/-- JavaScript strings, as lists of Unicode scalar values. -/
abbrev JSString := List Char

deriving instance DecidableEq for Except

/-- Hex digit character for a value below 16, upper-case (as produced by
`Number.prototype.toString(16)` followed by `toUpperCase`). -/
def hexDigitUpper (n : Nat) : Char :=
  ("0123456789ABCDEF".toList).getD n '0'

/-- Is `c` an ASCII hex digit (either case)? -/
def isHexDigit (c : Char) : Bool :=
  (48 ≤ c.toNat && c.toNat ≤ 57) || (65 ≤ c.toNat && c.toNat ≤ 70) ||
    (97 ≤ c.toNat && c.toNat ≤ 102)

/-- Numeric value of a hex digit. -/
def hexVal (c : Char) : Nat :=
  if 48 ≤ c.toNat && c.toNat ≤ 57 then c.toNat - 48
  else if 65 ≤ c.toNat && c.toNat ≤ 70 then c.toNat - 55
  else c.toNat - 87

/-- Hex digits of a natural number with explicit fuel (kept structural
so the kernel can evaluate it; the fuel never runs out because a number
has at most as many hex digits as its value). -/
def natHexUpperFuel : Nat → Nat → JSString
  | 0, _ => []
  | fuel + 1, n =>
    if n < 16 then [hexDigitUpper n]
    else natHexUpperFuel fuel (n / 16) ++ [hexDigitUpper (n % 16)]

/-- `Number.prototype.toString(16).toUpperCase()`: hex digits of a natural
number, no padding. -/
def natHexUpper (n : Nat) : JSString := natHexUpperFuel (n + 1) n

/-- `_encode(ch)` from the source: a percent sign followed by the
upper-case hex digits of the character's code. -/
def jsEscapeChar (c : Char) : JSString := '%' :: natHexUpper c.toNat

/-- One UTF-8 byte as a percent escape, always two upper-case hex digits
(the escaping used by `encodeURIComponent`, ECMA-262). -/
def byteToHexUpper (b : Nat) : JSString :=
  ['%', hexDigitUpper (b / 16), hexDigitUpper (b % 16)]

/-- UTF-8 bytes of a Unicode scalar value. -/
def utf8Bytes (n : Nat) : List Nat :=
  if n < 0x80 then [n]
  else if n < 0x800 then [0xC0 + n / 64, 0x80 + n % 64]
  else if n < 0x10000 then [0xE0 + n / 4096, 0x80 + n / 64 % 64, 0x80 + n % 64]
  else [0xF0 + n / 262144, 0x80 + n / 4096 % 64, 0x80 + n / 64 % 64, 0x80 + n % 64]

/-- Is `c` an ASCII letter or digit? -/
def isAsciiAlphanum (c : Char) : Bool :=
  (48 ≤ c.toNat && c.toNat ≤ 57) || (65 ≤ c.toNat && c.toNat ≤ 90) ||
    (97 ≤ c.toNat && c.toNat ≤ 122)

/-- The characters `encodeURIComponent` leaves unescaped (ECMA-262
`uriUnescaped`): ASCII alphanumerics and `- _ . ! ~ * ' ( )`
(codes 45, 95, 46, 33, 126, 42, 39, 40, 41). -/
def uriUnescapedJS (c : Char) : Bool :=
  isAsciiAlphanum c || c.toNat = 45 || c.toNat = 95 || c.toNat = 46 ||
    c.toNat = 33 || c.toNat = 126 || c.toNat = 42 || c.toNat = 39 ||
    c.toNat = 40 || c.toNat = 41

/-- ECMA-262 `encodeURIComponent`: keep `uriUnescaped` characters,
percent-escape the UTF-8 bytes of every other code point. -/
def encodeURIComponentChar (c : Char) : JSString :=
  if uriUnescapedJS c then [c] else (utf8Bytes c.toNat).flatMap byteToHexUpper

/-- ECMA-262 `encodeURIComponent` over a whole string. -/
def encodeURIComponent (s : JSString) : JSString :=
  s.flatMap encodeURIComponentChar

/-- The extra characters escaped on top of `encodeURIComponent` by the
source's `encodeURIComponent2` (the regex `[!'()*]`, codes 33, 39, 40,
41, 42). -/
def bangSet (c : Char) : Bool :=
  c.toNat = 33 || c.toNat = 39 || c.toNat = 40 || c.toNat = 41 || c.toNat = 42

/-- `encodeURIComponent2(str)`: `encodeURIComponent(str)` with the
characters `! ' ( ) *` additionally replaced by `_encode`. -/
def encodeURIComponent2 (s : JSString) : JSString :=
  (encodeURIComponent s).flatMap (fun c => if bangSet c then jsEscapeChar c else [c])

/-- `encodeNoop(str)`: the identity encoder. -/
def encodeNoop (s : JSString) : JSString := s

/-- Is `b` a UTF-8 continuation byte (`10xxxxxx`)? -/
def contByte (b : Nat) : Bool := 0x80 ≤ b && b < 0xC0

/-- One UTF-8 continuation escape `%hh` with `0x80 ≤ hh < 0xC0`:
returns the byte and the rest of the string. -/
def contTriple : JSString → Option (Nat × JSString)
  | p :: a :: b :: r =>
    if p = '%' && isHexDigit a && isHexDigit b && contByte (hexVal a * 16 + hexVal b) then
      some (hexVal a * 16 + hexVal b, r)
    else none
  | _ => none

/-- The text after a `%` must start with two hex digits whose byte is
either ASCII or the lead of a complete, valid UTF-8 sequence (no
truncated sequences, no stray continuation bytes, no overlong forms,
no surrogates, nothing above U+10FFFF).  Returns the decoded scalar
value and the rest of the string; `none` is malformed (the model of
the thrown `URIError`). -/
def pctScalarCore (a b : Char) (r1 : JSString) : Option (Nat × JSString) :=
  if isHexDigit a && isHexDigit b then
      let B := hexVal a * 16 + hexVal b
      if B < 0x80 then some (B, r1)
      else if B < 0xC0 then none
      else if B < 0xE0 then
        match contTriple r1 with
        | some (b1, r2) =>
          let V := (B - 0xC0) * 64 + (b1 - 0x80)
          if 0x80 ≤ V then some (V, r2) else none
        | none => none
      else if B < 0xF0 then
        match contTriple r1 with
        | some (b1, r2) =>
          match contTriple r2 with
          | some (b2, r3) =>
            let V := (B - 0xE0) * 4096 + (b1 - 0x80) * 64 + (b2 - 0x80)
            if 0x800 ≤ V && ¬ (0xD800 ≤ V && V ≤ 0xDFFF) then some (V, r3) else none
          | none => none
        | none => none
      else if B < 0xF8 then
        match contTriple r1 with
        | some (b1, r2) =>
          match contTriple r2 with
          | some (b2, r3) =>
            match contTriple r3 with
            | some (b3, r4) =>
              let V := (B - 0xF0) * 262144 + (b1 - 0x80) * 4096 +
                (b2 - 0x80) * 64 + (b3 - 0x80)
              if 0x10000 ≤ V && V ≤ 0x10FFFF then some (V, r4) else none
            | none => none
          | none => none
        | none => none
      else none
    else none

/-- Dispatch of `pctScalarCore`: fewer than two characters after the
`%` is malformed. -/
def pctScalar (rest : JSString) : Option (Nat × JSString) :=
  match rest with
  | a :: b :: r1 => pctScalarCore a b r1
  | _ => none

/-- One step of ECMA-262 `Decode`, parameterized by the recursive call:
a literal character passes through, a `%` decodes one scalar value via
`pctScalar`. -/
def decodeStep (rec : JSString → Option JSString) (c : Char) (rest : JSString) :
    Option JSString :=
  if c = '%' then
    match pctScalar rest with
    | some (V, r) => (rec r).map (fun t => Char.ofNat V :: t)
    | none => none
  else (rec rest).map (fun t => c :: t)

/-- ECMA-262 `decodeURIComponent` with explicit fuel to keep the
recursion structural; every step consumes at least one character, so
fuel equal to the length never runs out. -/
def decodeFuel : Nat → JSString → Option JSString
  | _, [] => some []
  | 0, _ :: _ => none
  | f + 1, c :: rest => decodeStep (decodeFuel f) c rest

/-- `decodeURIComponent`, fuelled by the input length. -/
def decodeURIComponent (l : JSString) : Option JSString := decodeFuel l.length l

/-- Is `c` an ASCII upper-case letter (the regex class `[A-Z]`)? -/
def isUpperAZ (c : Char) : Bool := 65 ≤ c.toNat && c.toNat ≤ 90

/-- ASCII lower-casing of one character (the model of `toLowerCase`;
the embedding restricts JavaScript case mapping to ASCII). -/
def jsLowerChar (c : Char) : Char :=
  if isUpperAZ c then Char.ofNat (c.toNat + 32) else c

/-- ASCII lower-casing of a string (the model of `toLowerCase`). -/
def jsLower (s : JSString) : JSString := s.map jsLowerChar

-- ---------------------------------------------------------------------
-- The grammar matcher (the single regular expression of `_parseComponents`
-- re-expressed as an explicit scanner with identical capture semantics):
-- `^(([^:/?#]+?):)?(\/\/([^/?#]*))?([^?#]*)(\?([^#]*))?(#(.*))?`
-- ---------------------------------------------------------------------

/-- Characters allowed in the scheme capture group (`[^:/?#]`). -/
def schemeChar (c : Char) : Bool :=
  c ≠ ':' && c ≠ '/' && c ≠ '?' && c ≠ '#'

/-- Characters allowed in the authority capture group (`[^/?#]`). -/
def authChar (c : Char) : Bool :=
  c ≠ '/' && c ≠ '?' && c ≠ '#'

/-- Characters allowed in the path capture group (`[^?#]`). -/
def pathChar (c : Char) : Bool :=
  c ≠ '?' && c ≠ '#'

/-- Characters matched by `.` in a JavaScript regex: everything except
the four line terminators. -/
def dotChar (c : Char) : Bool :=
  c ≠ '\n' && c ≠ '\r' && c ≠ '\u2028' && c ≠ '\u2029'

/-- Scheme part of the scanner: `(([^:/?#]+?):)?` - a non-empty run of
non-special characters up to the first special character, which must be
a colon; otherwise the optional group does not participate. -/
def takeScheme (s : JSString) : JSString × JSString :=
  let pre := s.takeWhile schemeChar
  if pre.isEmpty then ([], s)
  else
    match s.dropWhile schemeChar with
    | c :: r => if c = ':' then (pre, r) else ([], s)
    | [] => ([], s)

/-- Authority part: `(\/\/([^/?#]*))?`. -/
def takeAuth (s : JSString) : JSString × JSString :=
  match s with
  | '/' :: '/' :: r => (r.takeWhile authChar, r.dropWhile authChar)
  | _ => ([], s)

/-- Query part: `(\?([^#]*))?`. -/
def takeQuery (s : JSString) : JSString × JSString :=
  match s with
  | '?' :: r => (r.takeWhile (fun c => c ≠ '#'), r.dropWhile (fun c => c ≠ '#'))
  | _ => ([], s)

/-- Fragment part: `(#(.*))?` - `.` does not match line terminators, and
the regex is not anchored at the end, so anything after a line
terminator is dropped. -/
def takeFrag (s : JSString) : JSString :=
  match s with
  | '#' :: r => r.takeWhile dotChar
  | _ => []

/-- The five raw (still percent-encoded) component substrings. -/
structure UriComponents where
  scheme : JSString
  authority : JSString
  path : JSString
  query : JSString
  fragment : JSString
deriving DecidableEq

/-- The immutable URI value: the five decoded components. -/
structure Uri where
  scheme : JSString
  authority : JSString
  path : JSString
  query : JSString
  fragment : JSString
deriving DecidableEq

/-- `Uri._parseComponents`: run the scanner; capture groups that do not
participate yield the empty string. -/
def Uri._parseComponents (s : JSString) : UriComponents :=
  let (sch, r1) := takeScheme s
  let (auth, r2) := takeAuth r1
  let p := r2.takeWhile pathChar
  let r3 := r2.dropWhile pathChar
  let (q, r4) := takeQuery r3
  let f := takeFrag r4
  ⟨sch, auth, p, q, f⟩

/-- Message of the I1 validation error (authority present, non-empty
path must start with a slash). -/
def i1Msg : String :=
  "UriError: If a Uri contains an authority component, then the path component must either be empty or begin with a slash"

/-- Message of the I2 validation error (no authority, path must not
begin with two slashes). -/
def i2Msg : String :=
  "UriError: If a Uri does not contain an authority component, then the path cannot begin with two slash characters"

/-- `Uri._validate`: `some` message when a validation error is thrown,
`none` when the value is accepted. -/
def Uri._validate (u : Uri) : Option String :=
  if u.authority ≠ [] ∧ u.path ≠ [] ∧ u.path.head? ≠ some '/' then some i1Msg
  else if u.authority = [] ∧ u.path.take 2 = ['/', '/'] then some i2Msg
  else none

/-- Does the value satisfy the two validation invariants? -/
def Uri.validOk (u : Uri) : Bool := (Uri._validate u).isNone

/-- Message of the `URIError` thrown by `decodeURIComponent`. -/
def uriMalformedMsg : String := "URIError: URI malformed"

/-- `Uri.parse`: run the grammar matcher, percent-decode
authority/path/query/fragment (never the scheme), then validate. -/
def Uri.parse (s : JSString) : Except String Uri :=
  let d := Uri._parseComponents s
  match decodeURIComponent d.authority, decodeURIComponent d.path,
      decodeURIComponent d.query, decodeURIComponent d.fragment with
  | some a, some p, some q, some f =>
    let u : Uri := ⟨d.scheme, a, p, q, f⟩
    match Uri._validate u with
    | some e => .error e
    | none => .ok u
  | _, _, _, _ => .error uriMalformedMsg

/-- A change record for `with`: each field is optional (`undefined` when
absent). -/
structure UriChange where
  scheme : Option JSString := none
  authority : Option JSString := none
  path : Option JSString := none
  query : Option JSString := none
  fragment : Option JSString := none
deriving DecidableEq

/-- `change.field || this.field`: JavaScript falsy fallback - both an
absent field and an explicit empty string fall back to the current
value. -/
def jsOr (o : Option JSString) (cur : JSString) : JSString :=
  match o with
  | some v => if v = [] then cur else v
  | none => cur

/-- The component record produced by merging a change into a value
(the five `let` bindings at the top of `with`). -/
def Uri.mergeChange (u : Uri) (c : UriChange) : Uri :=
  ⟨jsOr c.scheme u.scheme, jsOr c.authority u.authority, jsOr c.path u.path,
    jsOr c.query u.query, jsOr c.fragment u.fragment⟩

/-- Result of `with`, keeping reference identity observable: `same`
means the method returned `this` (no allocation), `changed` a freshly
allocated value, `failed` a thrown validation error. -/
inductive WithResult where
  | same
  | changed (u : Uri)
  | failed (e : String)
deriving DecidableEq

/-- `Uri.with(change)` (named `withRes` because `with` is reserved):
`this` for a null change; otherwise merge with falsy fallback, return
`this` when all five merged fields equal the current ones, else
validate and allocate. -/
def Uri.withRes (u : Uri) (change : Option UriChange) : WithResult :=
  match change with
  | none => .same
  | some ch =>
    let v := Uri.mergeChange u ch
    if v = u then .same
    else
      match Uri._validate v with
      | some e => .failed e
      | none => .changed v

/-- `Uri.with` as a fallible function, identifying `same` with returning
the receiver. -/
def Uri.withE (u : Uri) (change : Option UriChange) : Except String Uri :=
  match Uri.withRes u change with
  | .same => .ok u
  | .changed v => .ok v
  | .failed e => .error e

/-- The all-empty value built by the `Uri` constructor. -/
def Uri.empty : Uri := ⟨[], [], [], [], []⟩

/-- Message of the error thrown by `from` on a missing argument. -/
def fromNullMsg : String := "Error"

/-- `Uri.from(components)`: throws on a missing argument, otherwise
`new Uri().with(components)`. -/
def Uri.fromC (components : Option UriChange) : Except String Uri :=
  match components with
  | none => .error fromNullMsg
  | some ch => Uri.withE Uri.empty (some ch)

/-- The body of `Uri.file` after the backslash normalization: split off
a UNC authority when the path starts with two slashes, ensure the path
starts with a slash, validate. -/
def Uri.fileSlashed (p : JSString) : Except String Uri :=
  let ap : JSString × JSString :=
    match p with
    | a :: b :: r =>
      if a = '/' ∧ b = '/' then
        match r.findIdx? (fun c => c = '/') with
        | none => (r, [])
        | some k => (r.take k, r.drop k)
      else ([], p)
    | _ => ([], p)
  let path := if ap.2.head? = some '/' then ap.2 else '/' :: ap.2
  let u : Uri := ⟨("file".toList), ap.1, path, [], []⟩
  match Uri._validate u with
  | some e => .error e
  | none => .ok u

/-- `Uri.file`: normalize backslashes to slashes, then split, prefix
and validate as in `fileSlashed`. -/
def Uri.file (input : JSString) : Except String Uri :=
  Uri.fileSlashed (input.map (fun c => if c = '\\' then '/' else c))

/-- The character class of `Uri._driveLetterPath`, `/^\/[a-zA-z]:/`: the
(sic) range `A-z` subsumes `a-z`, so it admits every ASCII code from
`A` (65) to `z` (122), including `[ \ ] ^ _` and the backquote. -/
def driveLetterChar (c : Char) : Bool := 65 ≤ c.toNat && c.toNat ≤ 122

/-- `Uri.fsPath` (getter): UNC join for `file` URIs with an authority,
drive-letter lower-casing (dropping the leading slash, exactly as
`path[1].toLowerCase() + path.substr(2)` does), backslash conversion on
a Windows host.  The platform flag is the injected `isWindows`. -/
def Uri.fsPath (isWindows : Bool) (u : Uri) : JSString :=
  let value :=
    if u.authority ≠ [] ∧ u.scheme = ("file".toList) then
      '/' :: '/' :: (u.authority ++ u.path)
    else
      match u.path with
      | a :: c :: d :: r =>
        if a = '/' ∧ d = ':' ∧ driveLetterChar c = true then jsLowerChar c :: ':' :: r
        else u.path
      | _ => u.path
  if isWindows then value.map (fun c => if c = '/' then '\\' else c) else value

-- ---------------------------------------------------------------------
-- Formatting (`Uri._asFormatted` / `Uri.toString`)
-- ---------------------------------------------------------------------

/-- Pieces of a path between the slashes (the substrings produced by the
`indexOf`/`substring` loop of `_asFormatted`), including empty pieces. -/
def splitSlash : JSString → List JSString
  | [] => [[]]
  | c :: t =>
    let r := splitSlash t
    if c = '/' then [] :: r else (c :: r.headD []) :: r.tail

/-- Rejoin pieces with slashes. -/
def joinSlash : List JSString → JSString
  | [] => []
  | [s] => s
  | s :: r => s ++ '/' :: joinSlash r

/-- `.replace(/[#?]/, _encode)`: the regex has no global flag, so only
the first `#` or `?` is replaced. -/
def replaceFirstHashQ : JSString → JSString
  | [] => []
  | c :: r =>
    if c = '#' ∨ c = '?' then jsEscapeChar c ++ r else c :: replaceFirstHashQ r

/-- Message of the `TypeError` hit by `_asFormatted` when
`_upperCaseDrive` matches without the optional leading slash (`m[1]` is
`undefined` and `m[1].length` is read). -/
def driveTypeErrMsg : String := "TypeError: cannot read length of undefined"

/-- The `_upperCaseDrive` adjustment (`/^(\/)?([A-Z]:)/`): lower-case an
upper-case drive letter after a leading slash; without the leading
slash the source crashes on `m[1].length`. -/
def Uri.driveAdjustE (p : JSString) : Except String JSString :=
  match p with
  | '/' :: c :: ':' :: r =>
    if isUpperAZ c then .ok ('/' :: jsLowerChar c :: ':' :: r) else .ok p
  | c :: ':' :: r =>
    if isUpperAZ c then .error driveTypeErrMsg else .ok (c :: ':' :: r)
  | _ => .ok p

/-- `String.prototype.indexOf(':')`: position of the first colon. -/
def firstColon : JSString → Option Nat
  | [] => none
  | c :: r => if c = ':' then some 0 else (firstColon r).map (· + 1)

/-- Encode every slash-separated path piece with the given encoder and
force-escape the first bare `#`/`?` of each encoded piece (the loop at
the end of `_asFormatted`), rejoining with the untouched slashes. -/
def segmentsOut (encoder : JSString → JSString) (p : JSString) : JSString :=
  joinSlash ((splitSlash p).map (fun seg => replaceFirstHashQ (encoder seg)))

/-- `Uri._asFormatted`: emit `scheme:`, the `//` marker (authority
present or scheme exactly `file`), the lower-cased authority (encoder
applied only up to the first colon), the drive-adjusted
segment-encoded path, `?query` and `#fragment`. -/
def Uri._asFormatted (u : Uri) (skipEncoding : Bool) : Except String JSString :=
  let encoder := if skipEncoding then encodeNoop else encodeURIComponent2
  let s1 := if u.scheme = [] then [] else u.scheme ++ [':']
  let s2 := if u.authority ≠ [] ∨ u.scheme = ("file".toList) then ['/', '/'] else []
  let s3 :=
    if u.authority = [] then []
    else
      let a := jsLower u.authority
      match firstColon a with
      | none => encoder a
      | some i => encoder (a.take i) ++ a.drop i
  match (if u.path = [] then Except.ok []
      else (Uri.driveAdjustE u.path).map (segmentsOut encoder)) with
  | .error e => .error e
  | .ok s4 =>
    let s5 := if u.query = [] then [] else '?' :: encoder u.query
    let s6 := if u.fragment = [] then [] else '#' :: encoder u.fragment
    .ok (s1 ++ s2 ++ s3 ++ s4 ++ s5 ++ s6)

/-- `Uri.toString(skipEncoding)`; the lazy cache is semantically
transparent, so it is not modelled. -/
def Uri.toString (u : Uri) (skipEncoding : Bool) : Except String JSString :=
  Uri._asFormatted u skipEncoding

-- ---------------------------------------------------------------------
-- Path algebra (`Utils.joinPath`); its normalization comes from Node's
-- `path.posix`, which is outside this repository's sources.
-- ---------------------------------------------------------------------

/-- Modelled from the spec: one step of Node's `normalizeString` segment
resolution (`path.posix` is not part of this repository's sources).
Empty and `.` segments collapse away; `..` pops the previous segment,
and is kept only above the root of a relative path.  The accumulator is
kept in reverse order. -/
def normStep (allowAbove : Bool) (acc : List JSString) (seg : JSString) : List JSString :=
  if seg = [] ∨ seg = ['.'] then acc
  else if seg = ['.', '.'] then
    match acc with
    | [] => if allowAbove then [seg] else []
    | last :: rest => if last = ['.', '.'] then seg :: last :: rest else rest
  else seg :: acc

/-- Modelled from the spec: Node's `path.posix.normalize` — all `.` and
`..` segments resolved, repeated `/` collapsed, trailing separator
preserved, the empty path normalizing to `.` (the host path library's
standard normalize contract the spec defers to). -/
def posixNormalize (p : JSString) : JSString :=
  if p = [] then ['.']
  else
    let isAbs := p.head? = some '/'
    let trailing := p.getLast? = some '/'
    let segs := ((splitSlash p).foldl (normStep (!isAbs)) []).reverse
    let core := joinSlash segs
    if core = [] then
      if isAbs then ['/'] else if trailing then ['.', '/'] else ['.']
    else
      let core1 := if trailing then core ++ ['/'] else core
      if isAbs then '/' :: core1 else core1

/-- Modelled from the spec: Node's `path.posix.join` — non-empty
arguments joined with `/` and normalized, `.` when nothing remains. -/
def posixJoinMany (args : List JSString) : JSString :=
  let parts := args.filter (fun a => a ≠ [])
  if parts = [] then ['.'] else posixNormalize (joinSlash parts)

/-- `Utils.joinPath(uri, ...paths)`:
`uri.with({ path: posixPath.join(uri.path, ...paths) })`. -/
def Utils.joinPath (u : Uri) (paths : List JSString) : Except String Uri :=
  Uri.withE u (some ⟨none, none, some (posixJoinMany (u.path :: paths)), none, none⟩)

-- ---------------------------------------------------------------------
-- Derived definitions used in the statements of the claims
-- ---------------------------------------------------------------------

/-- The total part of the `_upperCaseDrive` adjustment: lower-case an
upper-case drive letter after a leading slash, leave anything else
unchanged. -/
def driveLowerTotal (p : JSString) : JSString :=
  match p with
  | a :: c :: d :: r =>
    if a = '/' ∧ d = ':' ∧ isUpperAZ c = true then '/' :: jsLowerChar c :: ':' :: r else p
  | _ => p

/-- Paths on which `_asFormatted` does not crash: everything except a
path whose first two characters are an upper-case letter and a colon
(there `m[1]` of `_upperCaseDrive` is `undefined`). -/
def driveOkB (p : JSString) : Bool :=
  match p with
  | c :: d :: _ => !(d = ':' && isUpperAZ c)
  | _ => true

/-- `scheme:` part of the formatted string. -/
def schemeOut (u : Uri) : JSString :=
  if u.scheme = [] then [] else u.scheme ++ [':']

/-- `//` marker of the formatted string. -/
def slashesOut (u : Uri) : JSString :=
  if u.authority ≠ [] ∨ u.scheme = ("file".toList) then ['/', '/'] else []

/-- Authority part of the formatted string (default encoding). -/
def authOut (u : Uri) : JSString :=
  if u.authority = [] then []
  else
    let a := jsLower u.authority
    match firstColon a with
    | none => encodeURIComponent2 a
    | some i => encodeURIComponent2 (a.take i) ++ a.drop i

/-- Path part of the formatted string (default encoding), with the
drive letter already adjusted. -/
def pathOut (u : Uri) : JSString :=
  if u.path = [] then []
  else segmentsOut encodeURIComponent2 (driveLowerTotal u.path)

/-- Query part of the formatted string (default encoding). -/
def queryOut (u : Uri) : JSString :=
  if u.query = [] then [] else '?' :: encodeURIComponent2 u.query

/-- Fragment part of the formatted string (default encoding). -/
def fragOut (u : Uri) : JSString :=
  if u.fragment = [] then [] else '#' :: encodeURIComponent2 u.fragment

/-- The canonical representative reached after one format/parse cycle:
authority lower-cased, a leading upper-case drive letter lower-cased. -/
def Uri.canon (u : Uri) : Uri :=
  ⟨u.scheme, jsLower u.authority, driveLowerTotal u.path, u.query, u.fragment⟩

/-- Condition on the authority for exact round-tripping: everything
after the first colon of the lower-cased authority is emitted raw by
the formatter, so it must contain no `/`, `?`, `#` (which would change
where the grammar matcher cuts) and no `%` (which would be decoded). -/
def authTailOk : JSString → Bool
  | [] => true
  | c :: r =>
    if c = ':' then r.all (fun x => x ≠ '/' && x ≠ '?' && x ≠ '#' && x ≠ '%')
    else authTailOk r

/-- Round-trippable URI values: valid, scheme free of `: / ? #` (a
scheme with such characters is emitted raw and re-parsed differently),
well-behaved authority tail, no relative `file` path with empty
authority (the path would be re-parsed as an authority), and a path the
formatter does not crash on. -/
def RTgood (u : Uri) : Prop :=
  Uri.validOk u = true ∧
  u.scheme.all schemeChar = true ∧
  authTailOk (jsLower u.authority) = true ∧
  (u.scheme = ("file".toList) → u.authority = [] → u.path = [] ∨ u.path.head? = some '/') ∧
  driveOkB u.path = true

instance (u : Uri) : Decidable (RTgood u) := by
  unfold RTgood
  infer_instance

/-- For C4: is every `%` in the string followed by two hex digits?  A
string with `wellPct = false` contains a malformed percent sequence in
the most basic sense. -/
def wellPct : JSString → Bool
  | [] => true
  | c :: r =>
    if c = '%' then
      match r with
      | a :: b :: r2 => isHexDigit a && isHexDigit b && wellPct r2
      | _ => false
    else wellPct r

/-- For C6, the filesystem path function exactly as the claim words it:
authority and path joined as `//authority/path` whenever the authority
is non-empty (no condition on the scheme); a path beginning with a
slash, one ASCII letter and a colon keeps its shape with the letter
lower-cased; backslashes on a Windows host. -/
def fsPathClaimed (isWindows : Bool) (u : Uri) : JSString :=
  let value :=
    if u.authority ≠ [] then '/' :: '/' :: (u.authority ++ u.path)
    else
      match u.path with
      | '/' :: c :: ':' :: r =>
        if (65 ≤ c.toNat ∧ c.toNat ≤ 90) ∨ (97 ≤ c.toNat ∧ c.toNat ≤ 122) then
          '/' :: jsLowerChar c :: ':' :: r
        else u.path
      | _ => u.path
  if isWindows then value.map (fun c => if c = '/' then '\\' else c) else value

/-- For C6, the filesystem path function as amended: the UNC join
applies only to `file` URIs, the drive-letter case drops the leading
slash, and the letter class is the source's `[a-zA-z]` (ASCII 65-122). -/
def fsPathAmended (isWindows : Bool) (u : Uri) : JSString :=
  let sep : Char := if isWindows then '\\' else '/'
  let conv : JSString → JSString := List.map (fun c => if c = '/' then sep else c)
  if u.scheme = ("file".toList) ∧ u.authority ≠ [] then
    conv ('/' :: '/' :: (u.authority ++ u.path))
  else
    match u.path with
    | a :: c :: d :: r =>
      if a = '/' ∧ d = ':' ∧ 65 ≤ c.toNat ∧ c.toNat ≤ 122 then
        conv (jsLowerChar c :: ':' :: r)
      else conv u.path
    | _ => conv u.path

/-- The characters kept literally by `encodeURIComponent2`: the
`uriUnescaped` set minus the five extra escapes, i.e. ASCII
alphanumerics and `- _ . ~`. -/
def keep2 (c : Char) : Bool :=
  isAsciiAlphanum c || c.toNat = 45 || c.toNat = 95 || c.toNat = 46 || c.toNat = 126

/-- One-pass form of `encodeURIComponent2` on a single character. -/
def encChar2 (c : Char) : JSString :=
  if keep2 c then [c] else (utf8Bytes c.toNat).flatMap byteToHexUpper

/-- Characters that can occur in `encodeURIComponent2` output: kept
characters plus `%` (hex digits are alphanumeric). -/
def encOutChar (c : Char) : Bool := keep2 c || c.toNat = 37

/-- For C8: every field provided in the change equals the value's
current field. -/
def providedEq (ch : UriChange) (u : Uri) : Prop :=
  (ch.scheme = none ∨ ch.scheme = some u.scheme) ∧
  (ch.authority = none ∨ ch.authority = some u.authority) ∧
  (ch.path = none ∨ ch.path = some u.path) ∧
  (ch.query = none ∨ ch.query = some u.query) ∧
  (ch.fragment = none ∨ ch.fragment = some u.fragment)

instance (ch : UriChange) (u : Uri) : Decidable (providedEq ch u) := by
  unfold providedEq
  infer_instance

-- ---------------------------------------------------------------------
-- Helper lemmas: characters, hex digits, the percent codec
-- ---------------------------------------------------------------------

theorem char_toNat_ofNat {n : Nat} (h : Nat.isValidChar n) : (Char.ofNat n).toNat = n := by
  simp [Char.ofNat, h, Char.ofNatAux, Char.toNat, UInt32.toNat]

theorem char_eq_of_toNat_eq {c d : Char} (h : c.toNat = d.toNat) : c = d := by
  have hc := Char.ofNat_toNat c
  rw [h, Char.ofNat_toNat] at hc
  exact hc.symm

theorem char_valid' (c : Char) : c.toNat < 55296 ∨ (57343 < c.toNat ∧ c.toNat < 1114112) :=
  c.valid

theorem hexDigitUpper_toNat {n : Nat} (h : n < 16) :
    (hexDigitUpper n).toNat = if n < 10 then 48 + n else 55 + n := by
  interval_cases n <;> rfl

theorem isHexDigit_hexDigitUpper {n : Nat} (h : n < 16) :
    isHexDigit (hexDigitUpper n) = true := by
  interval_cases n <;> decide

theorem hexVal_hexDigitUpper {n : Nat} (h : n < 16) : hexVal (hexDigitUpper n) = n := by
  interval_cases n <;> decide

theorem encOutChar_hexDigitUpper {n : Nat} (h : n < 16) :
    encOutChar (hexDigitUpper n) = true := by
  interval_cases n <;> decide

theorem bangSet_hexDigitUpper {n : Nat} (h : n < 16) :
    bangSet (hexDigitUpper n) = false := by
  interval_cases n <;> decide

theorem utf8Bytes_lt {n : Nat} (hn : n < 1114112) : ∀ b ∈ utf8Bytes n, b < 256 := by
  unfold utf8Bytes
  split_ifs with h1 h2 h3 <;> intro b hb <;> simp at hb <;> omega

theorem natHexUpperFuel_small {f n : Nat} (h : n < 16) :
    natHexUpperFuel (f + 1) n = [hexDigitUpper n] := by
  unfold natHexUpperFuel
  rw [if_pos h]

theorem natHexUpper_byte {t : Nat} (h1 : 16 ≤ t) (h2 : t < 256) :
    natHexUpper t = [hexDigitUpper (t / 16), hexDigitUpper (t % 16)] := by
  obtain ⟨k, rfl⟩ : ∃ k, t = k + 16 := ⟨t - 16, by omega⟩
  show natHexUpperFuel ((k + 16) + 1) (k + 16) = _
  rw [natHexUpperFuel]
  rw [if_neg (by omega)]
  obtain ⟨j, hj⟩ : ∃ j, k + 16 = j + 1 := ⟨k + 15, by omega⟩
  rw [hj, natHexUpperFuel_small (by omega)]
  simp

theorem jsEscapeChar_eq_byteToHex {c : Char} (h1 : 16 ≤ c.toNat) (h2 : c.toNat < 256) :
    jsEscapeChar c = byteToHexUpper c.toNat := by
  unfold jsEscapeChar byteToHexUpper
  rw [natHexUpper_byte h1 h2]

theorem bangSet_byteToHex {b : Nat} (hb : b < 256) :
    ∀ x ∈ byteToHexUpper b, bangSet x = false := by
  intro x hx
  unfold byteToHexUpper at hx
  simp only [List.mem_cons, List.not_mem_nil, or_false] at hx
  rcases hx with rfl | rfl | rfl
  · decide
  · exact bangSet_hexDigitUpper (by omega)
  · exact bangSet_hexDigitUpper (by omega)

theorem bangMap_id {l : JSString} (h : ∀ x ∈ l, bangSet x = false) :
    (l.flatMap (fun c => if bangSet c then jsEscapeChar c else [c])) = l := by
  induction l with
  | nil => rfl
  | cons c r ih =>
    have hc := h c (by simp)
    simp only [List.flatMap_cons, hc, Bool.false_eq_true, if_false, List.singleton_append]
    rw [ih (fun x hx => h x (by simp [hx]))]

theorem encChar2_spec (c : Char) :
    (encodeURIComponentChar c).flatMap (fun x => if bangSet x then jsEscapeChar x else [x]) =
      encChar2 c := by
  unfold encodeURIComponentChar encChar2
  by_cases hu : uriUnescapedJS c = true
  · rw [if_pos hu]
    simp only [List.flatMap_cons, List.flatMap_nil, List.append_nil]
    by_cases hb : bangSet c = true
    · rw [if_pos hb]
      simp only [bangSet, Bool.or_eq_true, decide_eq_true_eq] at hb
      have hk : ¬ keep2 c = true := by
        simp only [keep2, isAsciiAlphanum, Bool.or_eq_true, Bool.and_eq_true,
          decide_eq_true_eq]
        omega
      rw [if_neg hk]
      rw [utf8Bytes, if_pos (by omega : c.toNat < 0x80)]
      simp only [List.flatMap_cons, List.flatMap_nil, List.append_nil]
      exact jsEscapeChar_eq_byteToHex (by omega) (by omega)
    · rw [if_neg hb]
      simp only [bangSet, Bool.or_eq_true, decide_eq_true_eq, not_or] at hb
      simp only [uriUnescapedJS, isAsciiAlphanum, Bool.or_eq_true, Bool.and_eq_true,
        decide_eq_true_eq] at hu
      have hk : keep2 c = true := by
        simp only [keep2, isAsciiAlphanum, Bool.or_eq_true, Bool.and_eq_true,
          decide_eq_true_eq]
        omega
      rw [if_pos hk]
  · rw [if_neg hu]
    have hk : ¬ keep2 c = true := by
      intro hk
      apply hu
      simp only [keep2, Bool.or_eq_true, decide_eq_true_eq] at hk
      simp only [uriUnescapedJS, Bool.or_eq_true, decide_eq_true_eq]
      tauto
    rw [if_neg hk]
    apply bangMap_id
    intro x hx
    have hv := char_valid' c
    rw [List.mem_flatMap] at hx
    obtain ⟨b, hb, hxb⟩ := hx
    exact bangSet_byteToHex (utf8Bytes_lt (by omega) b hb) x hxb

theorem encodeURIComponent2_eq (s : JSString) : encodeURIComponent2 s = s.flatMap encChar2 := by
  unfold encodeURIComponent2 encodeURIComponent
  rw [List.flatMap_assoc]
  exact congrArg _ (funext encChar2_spec)

theorem contTriple_cons (p a c : Char) (r' : JSString) :
    contTriple (p :: a :: c :: r') =
      (if (p = '%' && isHexDigit a && isHexDigit c && contByte (hexVal a * 16 + hexVal c)) = true
       then some (hexVal a * 16 + hexVal c, r') else none) := rfl

theorem contTriple_length {l : JSString} {b : Nat} {r : JSString}
    (h : contTriple l = some (b, r)) : l.length = r.length + 3 := by
  match l with
  | [] => simp [contTriple] at h
  | [x] => simp [contTriple] at h
  | [x, y] => simp [contTriple] at h
  | p :: a :: c :: r' =>
    rw [contTriple_cons] at h
    split_ifs at h
    simp only [Option.some.injEq, Prod.mk.injEq] at h
    obtain ⟨-, rfl⟩ := h
    simp

theorem pctScalar_cons (a b : Char) (r1 : JSString) :
    pctScalar (a :: b :: r1) = pctScalarCore a b r1 := rfl

theorem pctScalarCore_length {a b : Char} {r1 : JSString} {V : Nat} {r : JSString}
    (h : pctScalarCore a b r1 = some (V, r)) : r.length ≤ r1.length := by
  unfold pctScalarCore at h
  by_cases hx : (isHexDigit a && isHexDigit b) = true
  case neg => rw [if_neg hx] at h; exact absurd h (by simp)
  rw [if_pos hx] at h
  dsimp only at h
  split_ifs at h with h1 h2 h3 h4 h5
  · simp only [Option.some.injEq, Prod.mk.injEq] at h
    obtain ⟨-, rfl⟩ := h
    omega
  · rcases hct : contTriple r1 with _ | ⟨b1, r2⟩ <;> rw [hct] at h <;> dsimp only at h
    · exact absurd h (by simp)
    · have hl2 := contTriple_length hct
      split_ifs at h with hV
      simp only [Option.some.injEq, Prod.mk.injEq] at h
      obtain ⟨-, rfl⟩ := h
      omega
  · rcases hct : contTriple r1 with _ | ⟨b1, r2⟩ <;> rw [hct] at h <;> dsimp only at h
    · exact absurd h (by simp)
    · have hl2 := contTriple_length hct
      rcases hct2 : contTriple r2 with _ | ⟨b2, r3⟩ <;> rw [hct2] at h <;> dsimp only at h
      · exact absurd h (by simp)
      · have hl3 := contTriple_length hct2
        split_ifs at h with hV
        simp only [Option.some.injEq, Prod.mk.injEq] at h
        obtain ⟨-, rfl⟩ := h
        omega
  · rcases hct : contTriple r1 with _ | ⟨b1, r2⟩ <;> rw [hct] at h <;> dsimp only at h
    · exact absurd h (by simp)
    · have hl2 := contTriple_length hct
      rcases hct2 : contTriple r2 with _ | ⟨b2, r3⟩ <;> rw [hct2] at h <;> dsimp only at h
      · exact absurd h (by simp)
      · have hl3 := contTriple_length hct2
        rcases hct3 : contTriple r3 with _ | ⟨b3, r4⟩ <;> rw [hct3] at h <;> dsimp only at h
        · exact absurd h (by simp)
        · have hl4 := contTriple_length hct3
          split_ifs at h with hV
          simp only [Option.some.injEq, Prod.mk.injEq] at h
          obtain ⟨-, rfl⟩ := h
          omega

theorem pctScalar_length {rest : JSString} {V : Nat} {r : JSString}
    (h : pctScalar rest = some (V, r)) : r.length ≤ rest.length := by
  match rest with
  | [] => simp [pctScalar] at h
  | [a] => simp [pctScalar] at h
  | a :: b :: r1 =>
    rw [pctScalar_cons] at h
    have := pctScalarCore_length h
    simp only [List.length_cons]
    omega

theorem decodeStep_congr {rec1 rec2 : JSString → Option JSString} {c : Char} {rest : JSString}
    (h : ∀ x : JSString, x.length ≤ rest.length → rec1 x = rec2 x) :
    decodeStep rec1 c rest = decodeStep rec2 c rest := by
  unfold decodeStep
  by_cases hc : c = '%'
  · subst hc
    rw [if_pos rfl, if_pos rfl]
    rcases hp : pctScalar rest with _ | ⟨V, r⟩
    · rfl
    · dsimp only
      rw [h r (pctScalar_length hp)]
  · rw [if_neg hc, if_neg hc, h rest (by omega)]

theorem decodeFuel_mono : ∀ (f g : Nat) (l : JSString), l.length ≤ f → l.length ≤ g →
    decodeFuel f l = decodeFuel g l := by
  intro f
  induction f with
  | zero =>
    intro g l hf _
    have : l = [] := List.eq_nil_of_length_eq_zero (by omega)
    subst this
    cases g <;> rfl
  | succ f ih =>
    intro g l hf hg
    match l with
    | [] => cases g <;> rfl
    | c :: rest =>
      cases g with
      | zero => simp at hg
      | succ g =>
        simp only [List.length_cons, Nat.add_le_add_iff_right] at hf hg
        show decodeStep (decodeFuel f) c rest = decodeStep (decodeFuel g) c rest
        exact decodeStep_congr (fun x hx => ih g x (by omega) (by omega))

theorem decode_eq_fuel {f : Nat} {l : JSString} (h : l.length ≤ f) :
    decodeFuel f l = decodeURIComponent l :=
  decodeFuel_mono f l.length l h (le_refl _)

theorem contTriple_enc {b : Nat} (hb1 : 0x80 ≤ b) (hb2 : b < 0xC0) (t : JSString) :
    contTriple ('%' :: hexDigitUpper (b / 16) :: hexDigitUpper (b % 16) :: t) = some (b, t) := by
  rw [contTriple_cons]
  rw [hexVal_hexDigitUpper (by omega), hexVal_hexDigitUpper (by omega)]
  have eB : b / 16 * 16 + b % 16 = b := by omega
  rw [eB]
  rw [if_pos (by
    simp [isHexDigit_hexDigitUpper (show b / 16 < 16 by omega),
      isHexDigit_hexDigitUpper (show b % 16 < 16 by omega), contByte]
    omega)]

theorem pctScalarCore_enc1 {n : Nat} (h : n < 0x80) (t : JSString) :
    pctScalarCore (hexDigitUpper (n / 16)) (hexDigitUpper (n % 16)) t = some (n, t) := by
  unfold pctScalarCore
  rw [hexVal_hexDigitUpper (by omega), hexVal_hexDigitUpper (by omega)]
  have eB : n / 16 * 16 + n % 16 = n := by omega
  rw [eB]
  rw [if_pos (by simp [isHexDigit_hexDigitUpper (show n / 16 < 16 by omega),
    isHexDigit_hexDigitUpper (show n % 16 < 16 by omega)])]
  dsimp only
  rw [if_pos h]

theorem pctScalarCore_enc2 {n : Nat} (h1 : 0x80 ≤ n) (h2 : n < 0x800) (t : JSString) :
    pctScalarCore (hexDigitUpper ((0xC0 + n / 64) / 16)) (hexDigitUpper ((0xC0 + n / 64) % 16))
      ('%' :: hexDigitUpper ((0x80 + n % 64) / 16) :: hexDigitUpper ((0x80 + n % 64) % 16) :: t) =
      some (n, t) := by
  unfold pctScalarCore
  rw [hexVal_hexDigitUpper (by omega), hexVal_hexDigitUpper (by omega)]
  have eB : (0xC0 + n / 64) / 16 * 16 + (0xC0 + n / 64) % 16 = 0xC0 + n / 64 := by omega
  rw [eB]
  rw [if_pos (by simp [isHexDigit_hexDigitUpper (show (0xC0 + n / 64) / 16 < 16 by omega),
    isHexDigit_hexDigitUpper (show (0xC0 + n / 64) % 16 < 16 by omega)])]
  dsimp only
  rw [if_neg (by omega), if_neg (by omega), if_pos (by omega)]
  rw [contTriple_enc (by omega) (by omega) t]
  dsimp only
  have eV : (0xC0 + n / 64 - 0xC0) * 64 + (0x80 + n % 64 - 0x80) = n := by omega
  rw [eV]
  rw [if_pos (by omega)]

theorem pctScalarCore_enc3 {n : Nat} (h1 : 0x800 ≤ n) (h2 : n < 0x10000)
    (hs : ¬ (0xD800 ≤ n ∧ n ≤ 0xDFFF)) (t : JSString) :
    pctScalarCore (hexDigitUpper ((0xE0 + n / 4096) / 16)) (hexDigitUpper ((0xE0 + n / 4096) % 16))
      ('%' :: hexDigitUpper ((0x80 + n / 64 % 64) / 16) :: hexDigitUpper ((0x80 + n / 64 % 64) % 16) ::
       '%' :: hexDigitUpper ((0x80 + n % 64) / 16) :: hexDigitUpper ((0x80 + n % 64) % 16) :: t) =
      some (n, t) := by
  unfold pctScalarCore
  rw [hexVal_hexDigitUpper (by omega), hexVal_hexDigitUpper (by omega)]
  have eB : (0xE0 + n / 4096) / 16 * 16 + (0xE0 + n / 4096) % 16 = 0xE0 + n / 4096 := by omega
  rw [eB]
  rw [if_pos (by simp [isHexDigit_hexDigitUpper (show (0xE0 + n / 4096) / 16 < 16 by omega),
    isHexDigit_hexDigitUpper (show (0xE0 + n / 4096) % 16 < 16 by omega)])]
  dsimp only
  rw [if_neg (by omega), if_neg (by omega), if_neg (by omega), if_pos (by omega)]
  rw [contTriple_enc (by omega) (by omega)]
  dsimp only
  rw [contTriple_enc (by omega) (by omega) t]
  dsimp only
  have eV : (0xE0 + n / 4096 - 0xE0) * 4096 + (0x80 + n / 64 % 64 - 0x80) * 64 +
      (0x80 + n % 64 - 0x80) = n := by omega
  rw [eV]
  rw [if_pos (by simp; omega)]

theorem pctScalarCore_enc4 {n : Nat} (h1 : 0x10000 ≤ n) (h2 : n ≤ 0x10FFFF) (t : JSString) :
    pctScalarCore (hexDigitUpper ((0xF0 + n / 262144) / 16)) (hexDigitUpper ((0xF0 + n / 262144) % 16))
      ('%' :: hexDigitUpper ((0x80 + n / 4096 % 64) / 16) :: hexDigitUpper ((0x80 + n / 4096 % 64) % 16) ::
       '%' :: hexDigitUpper ((0x80 + n / 64 % 64) / 16) :: hexDigitUpper ((0x80 + n / 64 % 64) % 16) ::
       '%' :: hexDigitUpper ((0x80 + n % 64) / 16) :: hexDigitUpper ((0x80 + n % 64) % 16) :: t) =
      some (n, t) := by
  unfold pctScalarCore
  rw [hexVal_hexDigitUpper (by omega), hexVal_hexDigitUpper (by omega)]
  have eB : (0xF0 + n / 262144) / 16 * 16 + (0xF0 + n / 262144) % 16 = 0xF0 + n / 262144 := by
    omega
  rw [eB]
  rw [if_pos (by simp [isHexDigit_hexDigitUpper (show (0xF0 + n / 262144) / 16 < 16 by omega),
    isHexDigit_hexDigitUpper (show (0xF0 + n / 262144) % 16 < 16 by omega)])]
  dsimp only
  rw [if_neg (by omega), if_neg (by omega), if_neg (by omega), if_neg (by omega),
    if_pos (by omega)]
  rw [contTriple_enc (by omega) (by omega)]
  dsimp only
  rw [contTriple_enc (by omega) (by omega)]
  dsimp only
  rw [contTriple_enc (by omega) (by omega) t]
  dsimp only
  have eV : (0xF0 + n / 262144 - 0xF0) * 262144 + (0x80 + n / 4096 % 64 - 0x80) * 4096 +
      (0x80 + n / 64 % 64 - 0x80) * 64 + (0x80 + n % 64 - 0x80) = n := by omega
  rw [eV]
  rw [if_pos (by simp; omega)]

theorem decode_cons_ne {c : Char} (hc : ¬ c = '%') (t : JSString) :
    decodeURIComponent (c :: t) = (decodeURIComponent t).map (fun r => c :: r) := by
  show decodeStep (decodeFuel t.length) c t = _
  unfold decodeStep
  rw [if_neg hc]
  rfl

theorem decode_pct {rest : JSString} {n : Nat} {t : JSString} (h : pctScalar rest = some (n, t)) :
    decodeURIComponent ('%' :: rest) = (decodeURIComponent t).map (fun r => Char.ofNat n :: r) := by
  show decodeStep (decodeFuel rest.length) '%' rest = _
  unfold decodeStep
  rw [if_pos rfl, h]
  dsimp only
  rw [decode_eq_fuel (pctScalar_length h)]

theorem decode_encChar2 (c : Char) (t : JSString) :
    decodeURIComponent (encChar2 c ++ t) = (decodeURIComponent t).map (fun r => c :: r) := by
  by_cases hk : keep2 c = true
  · rw [encChar2, if_pos hk, List.singleton_append]
    refine decode_cons_ne ?_ t
    intro hc
    subst hc
    exact absurd hk (by decide)
  · rw [encChar2, if_neg hk]
    have hv := char_valid' c
    by_cases h1 : c.toNat < 0x80
    · rw [utf8Bytes, if_pos h1]
      simp only [List.flatMap_cons, List.flatMap_nil, List.append_nil, byteToHexUpper,
        List.cons_append, List.nil_append]
      rw [decode_pct (by rw [pctScalar_cons]; exact pctScalarCore_enc1 h1 t)]
      rw [Char.ofNat_toNat]
    · by_cases h2 : c.toNat < 0x800
      · rw [utf8Bytes, if_neg h1, if_pos h2]
        simp only [List.flatMap_cons, List.flatMap_nil, List.append_nil, byteToHexUpper,
          List.cons_append, List.nil_append]
        rw [decode_pct (by rw [pctScalar_cons]; exact pctScalarCore_enc2 (by omega) h2 t)]
        rw [Char.ofNat_toNat]
      · by_cases h3 : c.toNat < 0x10000
        · rw [utf8Bytes, if_neg h1, if_neg h2, if_pos h3]
          simp only [List.flatMap_cons, List.flatMap_nil, List.append_nil, byteToHexUpper,
            List.cons_append, List.nil_append]
          rw [decode_pct (by
            rw [pctScalar_cons]
            exact pctScalarCore_enc3 (by omega) h3 (by omega) t)]
          rw [Char.ofNat_toNat]
        · rw [utf8Bytes, if_neg h1, if_neg h2, if_neg h3]
          simp only [List.flatMap_cons, List.flatMap_nil, List.append_nil, byteToHexUpper,
            List.cons_append, List.nil_append]
          rw [decode_pct (by
            rw [pctScalar_cons]
            exact pctScalarCore_enc4 (by omega) (by omega) t)]
          rw [Char.ofNat_toNat]

theorem decode_append_enc2 (s t : JSString) :
    decodeURIComponent (encodeURIComponent2 s ++ t) =
      (decodeURIComponent t).map (fun r => s ++ r) := by
  rw [encodeURIComponent2_eq]
  induction s with
  | nil =>
    simp only [List.flatMap_nil, List.nil_append]
    rcases decodeURIComponent t with _ | r <;> simp
  | cons c s ih =>
    simp only [List.flatMap_cons, List.append_assoc]
    rw [decode_encChar2, ih]
    rcases decodeURIComponent t with _ | r <;> simp

theorem decode_enc2 (s : JSString) : decodeURIComponent (encodeURIComponent2 s) = some s := by
  have h := decode_append_enc2 s []
  rw [List.append_nil] at h
  rw [h]
  simp [decodeURIComponent, decodeFuel]

theorem decode_no_pct {t : JSString} (h : ∀ x ∈ t, ¬ x = '%') : decodeURIComponent t = some t := by
  induction t with
  | nil => rfl
  | cons c r ih =>
    rw [decode_cons_ne (h c (by simp)) r, ih (fun x hx => h x (by simp [hx]))]
    rfl

theorem splitSlash_ne_nil (p : JSString) : splitSlash p ≠ [] := by
  induction p with
  | nil => simp [splitSlash]
  | cons c t ih =>
    unfold splitSlash
    dsimp only
    split_ifs <;> simp

theorem joinSlash_cons_cons (s : JSString) {r : List JSString} (hr : r ≠ []) :
    joinSlash (s :: r) = s ++ '/' :: joinSlash r := by
  match r with
  | x :: rs => rfl

theorem joinSlash_head (c : Char) {r : List JSString} (hr : r ≠ []) :
    joinSlash ((c :: (r.headD [])) :: r.tail) = c :: joinSlash r := by
  match r with
  | [x] => rfl
  | x :: y :: rs => rfl

theorem joinSlash_splitSlash (p : JSString) : joinSlash (splitSlash p) = p := by
  induction p with
  | nil => rfl
  | cons c t ih =>
    unfold splitSlash
    dsimp only
    by_cases hc : c = '/'
    · rw [if_pos hc, joinSlash_cons_cons [] (splitSlash_ne_nil t), List.nil_append, ih, hc]
    · rw [if_neg hc, joinSlash_head c (splitSlash_ne_nil t), ih]

theorem headD_mem {l : List JSString} (h : l ≠ []) : l.headD [] ∈ l := by
  match l with
  | x :: r => simp

theorem splitSlash_no_slash (p : JSString) : ∀ s ∈ splitSlash p, ∀ x ∈ s, ¬ x = '/' := by
  induction p with
  | nil =>
    intro s hs x hx
    simp [splitSlash] at hs
    subst hs
    simp at hx
  | cons c t ih =>
    intro s hs x hx
    unfold splitSlash at hs
    dsimp only at hs
    by_cases hc : c = '/'
    · rw [if_pos hc] at hs
      rcases List.mem_cons.1 hs with rfl | hs'
      · simp at hx
      · exact ih s hs' x hx
    · rw [if_neg hc] at hs
      rcases List.mem_cons.1 hs with rfl | hs'
      · rcases List.mem_cons.1 hx with rfl | hx'
        · exact hc
        · exact ih _ (headD_mem (splitSlash_ne_nil t)) x hx'
      · exact ih s (List.mem_of_mem_tail hs') x hx

theorem mem_joinSlash {x : Char} {ss : List JSString} (h : x ∈ joinSlash ss) :
    x = '/' ∨ ∃ s ∈ ss, x ∈ s := by
  induction ss with
  | nil => simp [joinSlash] at h
  | cons s r ih =>
    match r with
    | [] =>
      right
      exact ⟨s, by simp, h⟩
    | y :: rs =>
      rw [joinSlash_cons_cons s (by simp)] at h
      rcases List.mem_append.1 h with hh | hh
      · right
        exact ⟨s, by simp, hh⟩
      · rcases List.mem_cons.1 hh with rfl | hh
        · left
          rfl
        · rcases ih hh with h' | ⟨s', hs', hx⟩
          · left
            exact h'
          · right
            exact ⟨s', by simp [hs'], hx⟩

theorem decode_joinSlash_enc (ss : List JSString) :
    decodeURIComponent (joinSlash (ss.map encodeURIComponent2)) = some (joinSlash ss) := by
  induction ss with
  | nil => rfl
  | cons s r ih =>
    match r with
    | [] =>
      show decodeURIComponent (joinSlash [encodeURIComponent2 s]) = _
      exact decode_enc2 s
    | y :: rs =>
      rw [List.map_cons, joinSlash_cons_cons _ (by simp),
        joinSlash_cons_cons _ (by simp : (y :: rs) ≠ [])]
      rw [decode_append_enc2, decode_cons_ne (by decide) _, ih]
      rfl

theorem encOutChar_enc2 {s : JSString} : ∀ x ∈ encodeURIComponent2 s, encOutChar x = true := by
  rw [encodeURIComponent2_eq]
  intro x hx
  rw [List.mem_flatMap] at hx
  obtain ⟨c, hc, hx⟩ := hx
  unfold encChar2 at hx
  split_ifs at hx with hk
  · rcases List.mem_singleton.1 hx with rfl
    simp [encOutChar, hk]
  · rw [List.mem_flatMap] at hx
    obtain ⟨b, hb, hx⟩ := hx
    have hv := char_valid' c
    have hblt : b < 256 := utf8Bytes_lt (by omega) b hb
    unfold byteToHexUpper at hx
    rcases List.mem_cons.1 hx with rfl | hx
    · decide
    · rcases List.mem_cons.1 hx with rfl | hx
      · exact encOutChar_hexDigitUpper (by omega)
      · rcases List.mem_cons.1 hx with rfl | hx
        · exact encOutChar_hexDigitUpper (by omega)
        · simp at hx

theorem encOutChar_facts {x : Char} (h : encOutChar x = true) :
    schemeChar x = true ∧ authChar x = true ∧ pathChar x = true ∧ dotChar x = true ∧
      ¬ x = ':' ∧ ¬ x = '/' ∧ ¬ x = '#' ∧ ¬ x = '?' := by
  have h1 : ¬ x = ':' := fun e => by subst e; exact absurd h (by decide)
  have h2 : ¬ x = '/' := fun e => by subst e; exact absurd h (by decide)
  have h3 : ¬ x = '#' := fun e => by subst e; exact absurd h (by decide)
  have h4 : ¬ x = '?' := fun e => by subst e; exact absurd h (by decide)
  have h5 : ¬ x = '\n' := fun e => by subst e; exact absurd h (by decide)
  have h6 : ¬ x = '\r' := fun e => by subst e; exact absurd h (by decide)
  have h7 : ¬ x = ' ' := fun e => by subst e; exact absurd h (by decide)
  have h8 : ¬ x = ' ' := fun e => by subst e; exact absurd h (by decide)
  refine ⟨?_, ?_, ?_, ?_, h1, h2, h3, h4⟩ <;>
    simp [schemeChar, authChar, pathChar, dotChar, h1, h2, h3, h4, h5, h6, h7, h8]

theorem replaceFirst_id {l : JSString} (h : ∀ x ∈ l, ¬ x = '#' ∧ ¬ x = '?') :
    replaceFirstHashQ l = l := by
  induction l with
  | nil => rfl
  | cons c r ih =>
    unfold replaceFirstHashQ
    have hc := h c (by simp)
    rw [if_neg (by tauto)]
    rw [ih (fun x hx => h x (by simp [hx]))]

theorem segmentsOut_enc2 (p : JSString) :
    segmentsOut encodeURIComponent2 p = joinSlash ((splitSlash p).map encodeURIComponent2) := by
  unfold segmentsOut
  congr 1
  apply List.map_congr_left
  intro seg _
  apply replaceFirst_id
  intro x hx
  have hf := encOutChar_facts (encOutChar_enc2 x hx)
  exact ⟨hf.2.2.2.2.2.2.1, hf.2.2.2.2.2.2.2⟩

theorem takeWhile_all {p : Char → Bool} {l : JSString} (h : ∀ x ∈ l, p x = true) :
    l.takeWhile p = l ∧ l.dropWhile p = [] := by
  induction l with
  | nil => exact ⟨rfl, rfl⟩
  | cons c r ih =>
    have hc := h c (by simp)
    obtain ⟨ih1, ih2⟩ := ih (fun x hx => h x (by simp [hx]))
    rw [List.takeWhile_cons, List.dropWhile_cons]
    rw [if_pos hc, if_pos hc, ih1, ih2]
    exact ⟨rfl, rfl⟩

theorem chunk_stop {p : Char → Bool} {l t : JSString} (hl : ∀ x ∈ l, p x = true)
    (ht : t = [] ∨ ∃ c r, t = c :: r ∧ p c = false) :
    (l ++ t).takeWhile p = l ∧ (l ++ t).dropWhile p = t := by
  induction l with
  | nil =>
    rcases ht with rfl | ⟨c, r, rfl, hc⟩
    · exact ⟨rfl, rfl⟩
    · rw [List.nil_append, List.takeWhile_cons, List.dropWhile_cons, if_neg (by simp [hc]),
        if_neg (by simp [hc])]
      exact ⟨rfl, rfl⟩
  | cons c r ih =>
    have hc := hl c (by simp)
    obtain ⟨ih1, ih2⟩ := ih (fun x hx => hl x (by simp [hx]))
    rw [List.cons_append, List.takeWhile_cons, List.dropWhile_cons, if_pos hc, if_pos hc,
      ih1, ih2]
    exact ⟨rfl, rfl⟩

theorem driveLowerTotal_of_not_drive {p : JSString}
    (h : ∀ (c : Char) (r : List Char), p = '/' :: c :: ':' :: r → False) :
    driveLowerTotal p = p := by
  match p with
  | [] => rfl
  | [a] => rfl
  | [a, c] => rfl
  | a :: c :: d :: r =>
    simp only [driveLowerTotal]
    rw [if_neg]
    rintro ⟨rfl, rfl, -⟩
    exact h c r rfl

theorem driveAdjustE_ok {p : JSString} (h : driveOkB p = true) :
    Uri.driveAdjustE p = .ok (driveLowerTotal p) := by
  unfold Uri.driveAdjustE
  split
  · next c r =>
    by_cases hu : isUpperAZ c = true <;> simp [driveLowerTotal, hu]
  · next c cs hr =>
    have hu : isUpperAZ c = false := by
      simp only [driveOkB, Bool.not_eq_true'] at h
      exact h
    rw [if_neg (by simp [hu])]
    rw [driveLowerTotal_of_not_drive]
    intro c' r' heq
    obtain ⟨rfl, -, rfl⟩ : c = '/' ∧ c' = ':' ∧ cs = ':' :: r' := by
      injection heq with e1 e2
      injection e2 with e3 e4
      exact ⟨e1, e3.symm, e4⟩
    exact hr r' rfl rfl
  · next p' h1 h2 =>
    rw [driveLowerTotal_of_not_drive (fun c r heq => h1 c r heq)]

theorem takeScheme_pos {sch T : JSString} (hs : sch ≠ []) (hall : sch.all schemeChar = true) :
    takeScheme (sch ++ ':' :: T) = (sch, T) := by
  obtain ⟨h1, h2⟩ := chunk_stop (p := schemeChar) (List.all_eq_true.1 hall)
    (Or.inr ⟨':', T, rfl, by decide⟩)
  unfold takeScheme
  rw [h1, h2]
  rw [if_neg (by simp [List.isEmpty_iff, hs])]
  dsimp only
  rw [if_pos rfl]

theorem takeScheme_slash (T : JSString) : takeScheme ('/' :: T) = ([], '/' :: T) := by
  have hp : List.takeWhile schemeChar ('/' :: T) = [] := by
    rw [List.takeWhile_cons, if_neg (by decide)]
  unfold takeScheme
  rw [hp]
  rw [if_pos (by decide)]

theorem takeScheme_nocolon {T : JSString} (h : ∀ x ∈ T, ¬ x = ':') :
    takeScheme T = ([], T) := by
  unfold takeScheme
  by_cases he : (T.takeWhile schemeChar).isEmpty = true
  · rw [if_pos he]
  · rw [if_neg he]
    rcases hd : T.dropWhile schemeChar with _ | ⟨c, r⟩
    · rfl
    · have hc : c ∈ T := (List.dropWhile_sublist schemeChar).mem (hd ▸ List.mem_cons_self c r)
      dsimp only
      rw [if_neg (h c hc)]

theorem takeAuth_pos {A T : JSString} (hall : ∀ x ∈ A, authChar x = true)
    (ht : T = [] ∨ ∃ c r, T = c :: r ∧ authChar c = false) :
    takeAuth ('/' :: '/' :: (A ++ T)) = (A, T) := by
  obtain ⟨h1, h2⟩ := chunk_stop hall ht
  show (List.takeWhile authChar (A ++ T), List.dropWhile authChar (A ++ T)) = (A, T)
  rw [h1, h2]

theorem takeAuth_no {s : JSString} (h : ∀ r : JSString, ¬ s = '/' :: '/' :: r) :
    takeAuth s = ([], s) := by
  unfold takeAuth
  split
  · rename_i r
    exact (h r rfl).elim
  · rfl

theorem takeQuery_pos {Q T : JSString} (hall : ∀ x ∈ Q, (x ≠ '#' : Bool) = true)
    (ht : T = [] ∨ ∃ c r, T = c :: r ∧ (c ≠ '#' : Bool) = false) :
    takeQuery ('?' :: (Q ++ T)) = (Q, T) := by
  obtain ⟨h1, h2⟩ := chunk_stop hall ht
  show (List.takeWhile (fun c => c ≠ '#') (Q ++ T), List.dropWhile (fun c => c ≠ '#') (Q ++ T)) =
    (Q, T)
  rw [h1, h2]

theorem takeQuery_no {s : JSString} (h : ∀ r : JSString, ¬ s = '?' :: r) :
    takeQuery s = ([], s) := by
  unfold takeQuery
  split
  · rename_i r
    exact (h r rfl).elim
  · rfl

theorem takeFrag_pos {G : JSString} (hall : ∀ x ∈ G, dotChar x = true) :
    takeFrag ('#' :: G) = G := by
  show List.takeWhile dotChar G = G
  exact (takeWhile_all hall).1

theorem takeFrag_no {s : JSString} (h : ∀ r : JSString, ¬ s = '#' :: r) :
    takeFrag s = [] := by
  unfold takeFrag
  split
  · rename_i r
    exact (h r rfl).elim
  · rfl

theorem firstColon_split {a : JSString} {i : Nat} (h : firstColon a = some i) :
    ∃ pre post, a = pre ++ ':' :: post ∧ pre.length = i ∧ ∀ x ∈ pre, ¬ x = ':' := by
  induction a generalizing i with
  | nil => simp [firstColon] at h
  | cons c r ih =>
    unfold firstColon at h
    by_cases hc : c = ':'
    · rw [if_pos hc] at h
      subst hc
      obtain rfl : 0 = i := Option.some.inj h
      exact ⟨[], r, rfl, rfl, by simp⟩
    · rw [if_neg hc] at h
      rcases hfc : firstColon r with _ | j
      · rw [hfc] at h
        simp at h
      · rw [hfc] at h
        simp only [Option.map_some'] at h
        obtain rfl : j + 1 = i := Option.some.inj h
        obtain ⟨pre, post, rfl, hlen, hpre⟩ := ih hfc
        refine ⟨c :: pre, post, rfl, by simp [hlen], ?_⟩
        intro x hx
        rcases List.mem_cons.1 hx with rfl | hx
        · exact hc
        · exact hpre x hx

theorem authTailOk_post {pre post : JSString} (hpre : ∀ x ∈ pre, ¬ x = ':')
    (h : authTailOk (pre ++ ':' :: post) = true) :
    ∀ x ∈ post, ¬ x = '/' ∧ ¬ x = '?' ∧ ¬ x = '#' ∧ ¬ x = '%' := by
  induction pre with
  | nil =>
    rw [List.nil_append] at h
    unfold authTailOk at h
    rw [if_pos rfl] at h
    intro x hx
    have := List.all_eq_true.1 h x hx
    simp only [Bool.and_eq_true, decide_eq_true_eq] at this
    tauto
  | cons c pre ih =>
    rw [List.cons_append] at h
    unfold authTailOk at h
    rw [if_neg (hpre c (by simp))] at h
    exact ih (fun x hx => hpre x (by simp [hx])) h

theorem jsLowerChar_toNat_upper {c : Char} (h : isUpperAZ c = true) :
    (jsLowerChar c).toNat = c.toNat + 32 := by
  unfold jsLowerChar
  rw [if_pos h]
  apply char_toNat_ofNat
  simp only [isUpperAZ, Bool.and_eq_true, decide_eq_true_eq] at h
  exact Or.inl (by omega)

theorem jsLowerChar_fix {c : Char} (h : isUpperAZ c = false) : jsLowerChar c = c := by
  unfold jsLowerChar
  rw [if_neg (by simp [h])]

theorem isUpperAZ_lower (c : Char) : isUpperAZ (jsLowerChar c) = false := by
  by_cases h : isUpperAZ c = true
  · have ht := jsLowerChar_toNat_upper h
    simp only [isUpperAZ, Bool.and_eq_true, decide_eq_true_eq] at h
    simp only [isUpperAZ, ht, Bool.and_eq_false_iff, decide_eq_false_iff_not]
    omega
  · rw [jsLowerChar_fix (by simpa using h)]
    simpa using h

theorem jsLowerChar_idem (c : Char) : jsLowerChar (jsLowerChar c) = jsLowerChar c :=
  jsLowerChar_fix (isUpperAZ_lower c)

theorem jsLower_idem (s : JSString) : jsLower (jsLower s) = jsLower s := by
  unfold jsLower
  rw [List.map_map]
  apply List.map_congr_left
  intro c _
  exact jsLowerChar_idem c

theorem jsLower_eq_nil {s : JSString} : jsLower s = [] ↔ s = [] := by
  unfold jsLower
  exact List.map_eq_nil_iff

theorem jsLowerChar_ne_slash {c : Char} (h : isUpperAZ c = true) :
    ¬ jsLowerChar c = '/' ∧ ¬ c = '/' := by
  have ht := jsLowerChar_toNat_upper h
  simp only [isUpperAZ, Bool.and_eq_true, decide_eq_true_eq] at h
  constructor
  · intro e
    have : (jsLowerChar c).toNat = 47 := by rw [e]; rfl
    omega
  · intro e
    have : c.toNat = 47 := by rw [e]; rfl
    omega

theorem driveLowerTotal_props (p : JSString) :
    (driveLowerTotal p).head? = p.head? ∧ (driveLowerTotal p = [] ↔ p = []) ∧
      ((driveLowerTotal p).take 2 = ['/', '/'] ↔ p.take 2 = ['/', '/']) := by
  match p with
  | [] => exact ⟨rfl, Iff.rfl, Iff.rfl⟩
  | [a] => exact ⟨rfl, Iff.rfl, Iff.rfl⟩
  | [a, c] => exact ⟨rfl, Iff.rfl, Iff.rfl⟩
  | a :: c :: d :: r =>
    simp only [driveLowerTotal]
    split_ifs with hcond
    · obtain ⟨rfl, rfl, hu⟩ := hcond
      obtain ⟨h1, h2⟩ := jsLowerChar_ne_slash hu
      refine ⟨rfl, by simp, ?_⟩
      simp [h1, h2]
    · exact ⟨rfl, Iff.rfl, Iff.rfl⟩

theorem driveLowerTotal_idem (p : JSString) :
    driveLowerTotal (driveLowerTotal p) = driveLowerTotal p := by
  match p with
  | [] => rfl
  | [a] => rfl
  | [a, c] => rfl
  | a :: c :: d :: r =>
    simp only [driveLowerTotal]
    split_ifs with hcond
    · simp only [driveLowerTotal]
      rw [if_neg]
      rintro ⟨-, -, hu⟩
      rw [isUpperAZ_lower c] at hu
      exact absurd hu (by simp)
    · simp only [driveLowerTotal]
      rw [if_neg hcond]

theorem driveLowerTotal_driveOk {p : JSString} (h : driveOkB p = true) :
    driveOkB (driveLowerTotal p) = true := by
  match p with
  | [] => rfl
  | [a] => rfl
  | [a, c] => simpa [driveLowerTotal] using h
  | a :: c :: d :: r =>
    simp only [driveLowerTotal]
    split_ifs with hcond
    · obtain ⟨rfl, rfl, hu⟩ := hcond
      simp only [driveOkB]
      simp
      exact Or.inr (by decide)
    · exact h

theorem splitSlash_cons_slash (t : JSString) : splitSlash ('/' :: t) = [] :: splitSlash t :=
  rfl

theorem splitSlash_cons_ne {c : Char} (hc : ¬ c = '/') (t : JSString) :
    splitSlash (c :: t) = (c :: (splitSlash t).headD []) :: (splitSlash t).tail := by
  show (let r := splitSlash t; if c = '/' then [] :: r else (c :: r.headD []) :: r.tail) = _
  rw [if_neg hc]

theorem segJoin_slash (t : JSString) :
    joinSlash ((splitSlash ('/' :: t)).map encodeURIComponent2) =
      '/' :: joinSlash ((splitSlash t).map encodeURIComponent2) := by
  rw [splitSlash_cons_slash, List.map_cons]
  rw [joinSlash_cons_cons _ (by simp [splitSlash_ne_nil t])]
  rfl

theorem encChar2_head (c : Char) : ∃ d l2, encChar2 c = d :: l2 ∧ encOutChar d = true := by
  unfold encChar2
  split_ifs with hk
  · exact ⟨c, [], rfl, by simp [encOutChar, hk]⟩
  · have hnn : utf8Bytes c.toNat ≠ [] := by
      unfold utf8Bytes
      split_ifs <;> simp
    rcases hb : utf8Bytes c.toNat with _ | ⟨b, bs⟩
    · exact absurd hb hnn
    · refine ⟨'%', hexDigitUpper (b / 16) :: hexDigitUpper (b % 16) :: bs.flatMap byteToHexUpper,
        ?_, by decide⟩
      rfl

theorem segJoin_cons_ne {c : Char} (hc : ¬ c = '/') (t : JSString) :
    ∃ d l, joinSlash ((splitSlash (c :: t)).map encodeURIComponent2) = d :: l ∧
      encOutChar d = true := by
  rw [splitSlash_cons_ne hc, List.map_cons]
  obtain ⟨d, l2, he, hd⟩ := encChar2_head c
  have henc : encodeURIComponent2 (c :: (splitSlash t).headD []) =
      d :: (l2 ++ encodeURIComponent2 ((splitSlash t).headD [])) := by
    rw [encodeURIComponent2_eq, List.flatMap_cons, ← encodeURIComponent2_eq, he,
      List.cons_append]
  rcases hm : ((splitSlash t).tail).map encodeURIComponent2 with _ | ⟨y, ys⟩
  · refine ⟨d, l2 ++ encodeURIComponent2 ((splitSlash t).headD []), ?_, hd⟩
    show encodeURIComponent2 (c :: (splitSlash t).headD []) = _
    exact henc
  · refine ⟨d, (l2 ++ encodeURIComponent2 ((splitSlash t).headD [])) ++
      '/' :: joinSlash (y :: ys), ?_, hd⟩
    rw [joinSlash_cons_cons _ (by simp), henc, List.cons_append]

theorem segJoin_chars (p : JSString) :
    ∀ x ∈ joinSlash ((splitSlash p).map encodeURIComponent2),
      x = '/' ∨ encOutChar x = true := by
  intro x hx
  rcases mem_joinSlash hx with rfl | ⟨s, hs, hxs⟩
  · exact Or.inl rfl
  · rcases List.mem_map.1 hs with ⟨seg, -, rfl⟩
    exact Or.inr (encOutChar_enc2 x hxs)

theorem segJoin_decode (p : JSString) :
    decodeURIComponent (joinSlash ((splitSlash p).map encodeURIComponent2)) = some p := by
  rw [decode_joinSlash_enc, joinSlash_splitSlash]

theorem authOut_spec {u : Uri} (hne : ¬ u.authority = [])
    (h3 : authTailOk (jsLower u.authority) = true) :
    (∀ x ∈ authOut u, authChar x = true) ∧
      decodeURIComponent (authOut u) = some (jsLower u.authority) := by
  unfold authOut
  rw [if_neg hne]
  dsimp only
  rcases hfc : firstColon (jsLower u.authority) with _ | i
  · constructor
    · intro x hx
      exact (encOutChar_facts (encOutChar_enc2 x hx)).2.1
    · exact decode_enc2 _
  · obtain ⟨pre, post, heq, hlen, hpre⟩ := firstColon_split hfc
    have hcond := authTailOk_post hpre (heq ▸ h3)
    rw [heq, ← hlen]
    dsimp only
    rw [List.take_left, List.drop_left]
    constructor
    · intro x hx
      rcases List.mem_append.1 hx with hx | hx
      · exact (encOutChar_facts (encOutChar_enc2 x hx)).2.1
      · rcases List.mem_cons.1 hx with rfl | hx
        · decide
        · obtain ⟨n1, n2, n3, -⟩ := hcond x hx
          simp [authChar, n1, n2, n3]
    · rw [decode_append_enc2, decode_cons_ne (by decide),
        decode_no_pct (fun x hx => (hcond x hx).2.2.2)]
      rfl

theorem validOk_props {u : Uri} (h : Uri.validOk u = true) :
    (u.authority ≠ [] → u.path ≠ [] → u.path.head? = some '/') ∧
      (u.authority = [] → ¬ u.path.take 2 = ['/', '/']) := by
  unfold Uri.validOk Uri._validate at h
  split_ifs at h with h1 h2
  · simp at h
  · simp at h
  · constructor
    · intro ha hp
      by_contra hh
      exact h1 ⟨ha, hp, hh⟩
    · intro ha hh
      exact h2 ⟨ha, hh⟩

theorem pathOut_chars (u : Uri) : ∀ x ∈ pathOut u, x = '/' ∨ encOutChar x = true := by
  unfold pathOut
  split_ifs with hp
  · simp
  · rw [segmentsOut_enc2]
    exact segJoin_chars _

theorem queryOut_shape (u : Uri) :
    queryOut u = [] ∨ ∃ t, queryOut u = '?' :: t ∧ ∀ x ∈ t, encOutChar x = true := by
  unfold queryOut
  split_ifs with hq
  · exact Or.inl rfl
  · exact Or.inr ⟨_, rfl, fun x hx => encOutChar_enc2 x hx⟩

theorem fragOut_shape (u : Uri) :
    fragOut u = [] ∨ ∃ t, fragOut u = '#' :: t ∧ ∀ x ∈ t, encOutChar x = true := by
  unfold fragOut
  split_ifs with hq
  · exact Or.inl rfl
  · exact Or.inr ⟨_, rfl, fun x hx => encOutChar_enc2 x hx⟩

theorem pathOut_slash_shape {u : Uri} (hp : ¬ u.path = [])
    (hh : u.path.head? = some '/') :
    ∃ t', driveLowerTotal u.path = '/' :: t' ∧
      pathOut u = '/' :: joinSlash ((splitSlash t').map encodeURIComponent2) := by
  have hprops := driveLowerTotal_props u.path
  have hhead : (driveLowerTotal u.path).head? = some '/' := by rw [hprops.1, hh]
  rcases hd : driveLowerTotal u.path with _ | ⟨c, t'⟩
  · rw [hd] at hhead
    simp at hhead
  · rw [hd] at hhead
    simp only [List.head?_cons, Option.some.injEq] at hhead
    subst hhead
    refine ⟨t', rfl, ?_⟩
    unfold pathOut
    rw [if_neg hp, segmentsOut_enc2, hd]
    exact segJoin_slash t'

theorem pathOut_ne_shape {u : Uri} (hp : ¬ u.path = [])
    (hh : ¬ u.path.head? = some '/') :
    ∃ d l, pathOut u = d :: l ∧ encOutChar d = true := by
  have hprops := driveLowerTotal_props u.path
  rcases hd : driveLowerTotal u.path with _ | ⟨c, t'⟩
  · exact absurd (hprops.2.1.1 hd) hp
  · have hc : ¬ c = '/' := by
      intro hcc
      apply hh
      rw [← hprops.1, hd, hcc]
      rfl
    obtain ⟨d, l, he, hdc⟩ := segJoin_cons_ne hc t'
    refine ⟨d, l, ?_, hdc⟩
    unfold pathOut
    rw [if_neg hp, segmentsOut_enc2, hd, he]

theorem restTwo_stop {u : Uri} (hslash : u.path = [] ∨ u.path.head? = some '/') :
    pathOut u ++ queryOut u ++ fragOut u = [] ∨
      ∃ c r, pathOut u ++ queryOut u ++ fragOut u = c :: r ∧ authChar c = false := by
  rcases hslash with hp | hh
  · have hpo : pathOut u = [] := by unfold pathOut; rw [if_pos hp]
    rw [hpo, List.nil_append]
    rcases queryOut_shape u with hq | ⟨t, hq, -⟩
    · rw [hq, List.nil_append]
      rcases fragOut_shape u with hf | ⟨t, hf, -⟩
      · exact Or.inl hf
      · exact Or.inr ⟨'#', t, hf, by decide⟩
    · rw [hq]
      exact Or.inr ⟨'?', _, rfl, by decide⟩
  · have hp : ¬ u.path = [] := by
      intro e
      rw [e] at hh
      simp at hh
    obtain ⟨t', -, hpo⟩ := pathOut_slash_shape hp hh
    rw [hpo]
    exact Or.inr ⟨'/', _, rfl, by decide⟩

theorem noDoubleSlash {u : Uri} (ha : u.authority = []) (hval : Uri.validOk u = true) :
    ∀ r : JSString, ¬ (pathOut u ++ queryOut u ++ fragOut u) = '/' :: '/' :: r := by
  intro r hcontra
  by_cases hp : u.path = []
  · have hpo : pathOut u = [] := by unfold pathOut; rw [if_pos hp]
    rw [hpo, List.nil_append] at hcontra
    rcases queryOut_shape u with hq | ⟨t, hq, -⟩
    · rw [hq, List.nil_append] at hcontra
      rcases fragOut_shape u with hf | ⟨t, hf, -⟩
      · rw [hf] at hcontra
        simp at hcontra
      · rw [hf] at hcontra
        simp at hcontra
    · rw [hq] at hcontra
      simp at hcontra
  · by_cases hh : u.path.head? = some '/'
    · obtain ⟨t', hdl, hpo⟩ := pathOut_slash_shape hp hh
      rw [hpo] at hcontra
      have htake : ¬ (driveLowerTotal u.path).take 2 = ['/', '/'] := by
        rw [(driveLowerTotal_props u.path).2.2]
        exact (validOk_props hval).2 ha
      rcases ht' : t' with _ | ⟨c, t''⟩
      · -- path out = ['/']; second char comes from query/fragment
        subst ht'
        have : joinSlash ((splitSlash ([] : JSString)).map encodeURIComponent2) = [] := rfl
        rw [this] at hcontra
        simp only [List.cons_append, List.nil_append, List.cons.injEq] at hcontra
        obtain ⟨-, hcontra⟩ := hcontra
        rcases queryOut_shape u with hq | ⟨t, hq, -⟩
        · rw [hq, List.nil_append] at hcontra
          rcases fragOut_shape u with hf | ⟨t, hf, -⟩
          · rw [hf] at hcontra
            simp at hcontra
          · rw [hf] at hcontra
            simp at hcontra
        · rw [hq] at hcontra
          simp at hcontra
      · subst ht'
        have hc : ¬ c = '/' := by
          intro hcc
          exact htake (by rw [hdl, hcc]; rfl)
        obtain ⟨d, l, he, hdc⟩ := segJoin_cons_ne hc t''
        rw [he] at hcontra
        simp only [List.cons_append, List.cons.injEq] at hcontra
        exact (encOutChar_facts hdc).2.2.2.2.2.1 hcontra.2.1
    · obtain ⟨d, l, hpo, hdc⟩ := pathOut_ne_shape hp hh
      rw [hpo] at hcontra
      simp only [List.cons_append, List.cons.injEq] at hcontra
      exact (encOutChar_facts hdc).2.2.2.2.2.1 hcontra.1

theorem parseComponents_format (u : Uri) (hRT : RTgood u) :
    Uri._parseComponents
      (schemeOut u ++ (slashesOut u ++ (authOut u ++ (pathOut u ++ (queryOut u ++ fragOut u))))) =
      ⟨u.scheme, authOut u, pathOut u,
        (if u.query = [] then [] else encodeURIComponent2 u.query),
        (if u.fragment = [] then [] else encodeURIComponent2 u.fragment)⟩ := by
  obtain ⟨hval, hsch, hauth, hfile, hdrive⟩ := hRT
  have hT2chars : ∀ x ∈ pathOut u ++ (queryOut u ++ fragOut u), ¬ x = ':' := by
    intro x hx
    rcases List.mem_append.1 hx with hx | hx
    · rcases pathOut_chars u x hx with rfl | he
      · decide
      · exact (encOutChar_facts he).2.2.2.2.1
    · rcases List.mem_append.1 hx with hx | hx
      · rcases queryOut_shape u with hq | ⟨t, hq, hqc⟩
        · rw [hq] at hx
          simp at hx
        · rw [hq] at hx
          rcases List.mem_cons.1 hx with rfl | hx
          · decide
          · exact (encOutChar_facts (hqc x hx)).2.2.2.2.1
      · rcases fragOut_shape u with hf | ⟨t, hf, hfc⟩
        · rw [hf] at hx
          simp at hx
        · rw [hf] at hx
          rcases List.mem_cons.1 hx with rfl | hx
          · decide
          · exact (encOutChar_facts (hfc x hx)).2.2.2.2.1
  have hstep1 : takeScheme
      (schemeOut u ++ (slashesOut u ++ (authOut u ++ (pathOut u ++ (queryOut u ++ fragOut u))))) =
      (u.scheme, slashesOut u ++ (authOut u ++ (pathOut u ++ (queryOut u ++ fragOut u)))) := by
    by_cases hs : u.scheme = []
    · have h0 : schemeOut u = [] := by unfold schemeOut; rw [if_pos hs]
      rw [h0, List.nil_append, hs]
      by_cases ha : u.authority = []
      · have hm : slashesOut u = [] := by
          unfold slashesOut
          rw [if_neg (by rw [hs]; simp [ha])]
        have hA : authOut u = [] := by unfold authOut; rw [if_pos ha]
        rw [hm, hA, List.nil_append, List.nil_append]
        exact takeScheme_nocolon hT2chars
      · have hm : slashesOut u = ['/', '/'] := by unfold slashesOut; rw [if_pos (Or.inl ha)]
        rw [hm]
        exact takeScheme_slash _
    · have h0 : schemeOut u = u.scheme ++ [':'] := by unfold schemeOut; rw [if_neg hs]
      rw [h0, List.append_assoc, List.singleton_append]
      exact takeScheme_pos hs hsch
  have hstep2 : takeAuth (slashesOut u ++ (authOut u ++ (pathOut u ++ (queryOut u ++ fragOut u)))) =
      (authOut u, pathOut u ++ (queryOut u ++ fragOut u)) := by
    by_cases hm : u.authority ≠ [] ∨ u.scheme = ("file".toList)
    · have hs2 : slashesOut u = ['/', '/'] := by unfold slashesOut; rw [if_pos hm]
      rw [hs2]
      show takeAuth ('/' :: '/' :: (authOut u ++ (pathOut u ++ (queryOut u ++ fragOut u)))) = _
      apply takeAuth_pos
      · by_cases ha : u.authority = []
        · have hA : authOut u = [] := by unfold authOut; rw [if_pos ha]
          rw [hA]
          simp
        · exact (authOut_spec ha hauth).1
      · have hsl : u.path = [] ∨ u.path.head? = some '/' := by
          rcases hm with ha | hf
          · by_cases hp : u.path = []
            · exact Or.inl hp
            · exact Or.inr ((validOk_props hval).1 ha hp)
          · by_cases ha : u.authority = []
            · exact hfile hf ha
            · by_cases hp : u.path = []
              · exact Or.inl hp
              · exact Or.inr ((validOk_props hval).1 ha hp)
        have := restTwo_stop (u := u) hsl
        rw [List.append_assoc] at this
        exact this
    · rw [not_or, not_not] at hm
      obtain ⟨ha, hnf⟩ := hm
      have hs2 : slashesOut u = [] := by
        unfold slashesOut
        rw [if_neg (by simp [ha]; intro hcc; exact hnf (by rw [hcc]; rfl))]
      have hA : authOut u = [] := by unfold authOut; rw [if_pos ha]
      rw [hs2, hA, List.nil_append, List.nil_append]
      apply takeAuth_no
      intro r hr
      apply noDoubleSlash ha hval r
      rw [List.append_assoc]
      exact hr
  have hstep3 : (pathOut u ++ (queryOut u ++ fragOut u)).takeWhile pathChar = pathOut u ∧
      (pathOut u ++ (queryOut u ++ fragOut u)).dropWhile pathChar = queryOut u ++ fragOut u := by
    apply chunk_stop
    · intro x hx
      rcases pathOut_chars u x hx with rfl | he
      · decide
      · exact (encOutChar_facts he).2.2.1
    · rcases queryOut_shape u with hq | ⟨t, hq, -⟩
      · rw [hq, List.nil_append]
        rcases fragOut_shape u with hf | ⟨t, hf, -⟩
        · exact Or.inl hf
        · exact Or.inr ⟨'#', t, hf, by decide⟩
      · rw [hq]
        exact Or.inr ⟨'?', _, rfl, by decide⟩
  have hstep4 : takeQuery (queryOut u ++ fragOut u) =
      ((if u.query = [] then [] else encodeURIComponent2 u.query), fragOut u) := by
    by_cases hq : u.query = []
    · have h0 : queryOut u = [] := by unfold queryOut; rw [if_pos hq]
      rw [h0, List.nil_append, if_pos hq]
      apply takeQuery_no
      intro r hr
      rcases fragOut_shape u with hf | ⟨t, hf, -⟩ <;> rw [hf] at hr <;> simp at hr
    · have h0 : queryOut u = '?' :: encodeURIComponent2 u.query := by
        unfold queryOut
        rw [if_neg hq]
      rw [h0, if_neg hq, List.cons_append]
      apply takeQuery_pos
      · intro x hx
        have hne := (encOutChar_facts (encOutChar_enc2 x hx)).2.2.2.2.2.2.1
        simp [hne]
      · rcases fragOut_shape u with hf | ⟨t, hf, -⟩
        · exact Or.inl hf
        · exact Or.inr ⟨'#', t, hf, by simp⟩
  have hstep5 : takeFrag (fragOut u) =
      (if u.fragment = [] then [] else encodeURIComponent2 u.fragment) := by
    by_cases hf : u.fragment = []
    · have h0 : fragOut u = [] := by unfold fragOut; rw [if_pos hf]
      rw [h0, if_pos hf]
      rfl
    · have h0 : fragOut u = '#' :: encodeURIComponent2 u.fragment := by
        unfold fragOut
        rw [if_neg hf]
      rw [h0, if_neg hf]
      exact takeFrag_pos (fun x hx => (encOutChar_facts (encOutChar_enc2 x hx)).2.2.2.1)
  unfold Uri._parseComponents
  rw [hstep1]
  dsimp only
  rw [hstep2]
  dsimp only
  rw [hstep3.1, hstep3.2, hstep4]
  dsimp only
  rw [hstep5]

theorem toString_ok {u : Uri} (h : driveOkB u.path = true) :
    Uri.toString u false = .ok
      (schemeOut u ++ slashesOut u ++ authOut u ++ pathOut u ++ queryOut u ++ fragOut u) := by
  show (match (if u.path = [] then Except.ok []
      else (Uri.driveAdjustE u.path).map (segmentsOut encodeURIComponent2)) with
    | .error e => (Except.error e : Except String JSString)
    | .ok s4 => Except.ok (schemeOut u ++ slashesOut u ++ authOut u ++ s4 ++
        queryOut u ++ fragOut u)) = _
  by_cases hp : u.path = []
  · rw [if_pos hp]
    have h4 : pathOut u = [] := by unfold pathOut; rw [if_pos hp]
    dsimp only
    rw [h4]
  · rw [if_neg hp, driveAdjustE_ok h]
    have h4 : pathOut u = segmentsOut encodeURIComponent2 (driveLowerTotal u.path) := by
      unfold pathOut
      rw [if_neg hp]
    dsimp only [Except.map]
    rw [h4]

theorem validate_canon {u : Uri} (hval : Uri.validOk u = true) :
    Uri._validate (Uri.canon u) = none := by
  have hp := driveLowerTotal_props u.path
  unfold Uri.validOk Uri._validate at hval
  split_ifs at hval with h1 h2
  · simp at hval
  · simp at hval
  have hn1 : ¬((Uri.canon u).authority ≠ [] ∧ (Uri.canon u).path ≠ [] ∧
      (Uri.canon u).path.head? ≠ some '/') := by
    dsimp only [Uri.canon]
    rintro ⟨hA, hP, hH⟩
    refine h1 ⟨fun hc => hA (by rw [hc]; rfl), fun hc => hP (hp.2.1.2 hc), ?_⟩
    rwa [hp.1] at hH
  have hn2 : ¬((Uri.canon u).authority = [] ∧ (Uri.canon u).path.take 2 = ['/', '/']) := by
    dsimp only [Uri.canon]
    rintro ⟨hA, hT⟩
    exact h2 ⟨jsLower_eq_nil.1 hA, hp.2.2.1 hT⟩
  unfold Uri._validate
  rw [if_neg hn1, if_neg hn2]

theorem parse_format (u : Uri) (hRT : RTgood u) :
    Uri.parse (schemeOut u ++ (slashesOut u ++ (authOut u ++
      (pathOut u ++ (queryOut u ++ fragOut u))))) = .ok (Uri.canon u) := by
  have hRT' := hRT
  obtain ⟨hval, hsch, hauth, hfile, hdrive⟩ := hRT'
  have hda : decodeURIComponent (authOut u) = some (jsLower u.authority) := by
    by_cases ha : u.authority = []
    · have h0 : authOut u = [] := by unfold authOut; rw [if_pos ha]
      rw [h0, ha]
      exact decode_no_pct (by simp)
    · exact (authOut_spec ha hauth).2
  have hdp : decodeURIComponent (pathOut u) = some (driveLowerTotal u.path) := by
    by_cases hp : u.path = []
    · have h0 : pathOut u = [] := by unfold pathOut; rw [if_pos hp]
      have h1 : driveLowerTotal u.path = [] := by rw [hp]; rfl
      rw [h0, h1]
      exact decode_no_pct (by simp)
    · have h0 : pathOut u = segmentsOut encodeURIComponent2 (driveLowerTotal u.path) := by
        unfold pathOut
        rw [if_neg hp]
      rw [h0, segmentsOut_enc2]
      exact segJoin_decode _
  have hdq : decodeURIComponent (if u.query = [] then [] else encodeURIComponent2 u.query) =
      some u.query := by
    by_cases hq : u.query = []
    · rw [if_pos hq, hq]
      exact decode_no_pct (by simp)
    · rw [if_neg hq]
      exact decode_enc2 _
  have hdf : decodeURIComponent
      (if u.fragment = [] then [] else encodeURIComponent2 u.fragment) = some u.fragment := by
    by_cases hf : u.fragment = []
    · rw [if_pos hf, hf]
      exact decode_no_pct (by simp)
    · rw [if_neg hf]
      exact decode_enc2 _
  unfold Uri.parse
  rw [parseComponents_format u hRT]
  dsimp only
  rw [hda, hdp, hdq, hdf]
  dsimp only
  rw [show Uri._validate (⟨u.scheme, jsLower u.authority, driveLowerTotal u.path, u.query,
    u.fragment⟩ : Uri) = Uri._validate (Uri.canon u) from rfl, validate_canon hval]
  rfl

theorem schemeOut_canon (u : Uri) : schemeOut (Uri.canon u) = schemeOut u := rfl

theorem queryOut_canon (u : Uri) : queryOut (Uri.canon u) = queryOut u := rfl

theorem fragOut_canon (u : Uri) : fragOut (Uri.canon u) = fragOut u := rfl

theorem slashesOut_canon (u : Uri) : slashesOut (Uri.canon u) = slashesOut u := by
  unfold slashesOut
  dsimp only [Uri.canon]
  apply if_congr _ rfl rfl
  constructor
  · rintro (h | h)
    · exact Or.inl (fun hc => h (by rw [hc]; rfl))
    · exact Or.inr h
  · rintro (h | h)
    · exact Or.inl (fun hc => h (jsLower_eq_nil.1 hc))
    · exact Or.inr h

theorem authOut_canon (u : Uri) : authOut (Uri.canon u) = authOut u := by
  unfold authOut
  dsimp only [Uri.canon]
  rw [jsLower_idem]
  apply if_congr _ rfl rfl
  exact ⟨fun h => jsLower_eq_nil.1 h, fun h => by rw [h]; rfl⟩

theorem pathOut_canon (u : Uri) : pathOut (Uri.canon u) = pathOut u := by
  unfold pathOut
  dsimp only [Uri.canon]
  rw [driveLowerTotal_idem]
  apply if_congr _ rfl rfl
  exact (driveLowerTotal_props u.path).2.1

theorem canon_idem (u : Uri) : Uri.canon (Uri.canon u) = Uri.canon u := by
  unfold Uri.canon
  dsimp only
  rw [jsLower_idem, driveLowerTotal_idem]

theorem RTgood_canon {u : Uri} (hRT : RTgood u) : RTgood (Uri.canon u) := by
  obtain ⟨hval, hsch, hauth, hfile, hdrive⟩ := hRT
  refine ⟨?_, hsch, ?_, ?_, ?_⟩
  · unfold Uri.validOk
    rw [validate_canon hval]
    rfl
  · dsimp only [Uri.canon]
    rw [jsLower_idem]
    exact hauth
  · dsimp only [Uri.canon]
    intro hf ha
    rcases hfile hf (jsLower_eq_nil.1 ha) with hp | hp
    · exact Or.inl ((driveLowerTotal_props u.path).2.1.2 hp)
    · exact Or.inr (((driveLowerTotal_props u.path).1).trans hp)
  · dsimp only [Uri.canon]
    exact driveLowerTotal_driveOk hdrive

theorem toString_canon {u : Uri} (h : driveOkB u.path = true) :
    Uri.toString (Uri.canon u) false = Uri.toString u false := by
  rw [toString_ok (by dsimp only [Uri.canon]; exact driveLowerTotal_driveOk h), toString_ok h,
    schemeOut_canon, slashesOut_canon, authOut_canon, pathOut_canon, queryOut_canon,
    fragOut_canon]

theorem wellPct_pct (a b : Char) (r2 : JSString) :
    wellPct ('%' :: a :: b :: r2) = (isHexDigit a && isHexDigit b && wellPct r2) := rfl

theorem wellPct_cons_ne {c : Char} (hc : ¬ c = '%') (r : JSString) :
    wellPct (c :: r) = wellPct r := by
  conv_lhs => rw [wellPct.eq_def]
  dsimp only
  rw [if_neg hc]

theorem contTriple_wellPct {l : JSString} {b : Nat} {r : JSString}
    (h : contTriple l = some (b, r)) : wellPct l = wellPct r := by
  match l with
  | [] => simp [contTriple] at h
  | [x] => simp [contTriple] at h
  | [x, y] => simp [contTriple] at h
  | p :: a :: c :: r' =>
    rw [contTriple_cons] at h
    split_ifs at h with hc
    simp only [Option.some.injEq, Prod.mk.injEq] at h
    obtain ⟨-, rfl⟩ := h
    simp only [Bool.and_eq_true, decide_eq_true_eq] at hc
    obtain ⟨⟨⟨hp, ha⟩, hb2⟩, -⟩ := hc
    subst hp
    show wellPct ('%' :: a :: c :: r') = wellPct r'
    rw [wellPct_pct, ha, hb2]
    simp

theorem pctScalarCore_hex {a b : Char} {r1 : JSString} {V : Nat} {r : JSString}
    (h : pctScalarCore a b r1 = some (V, r)) :
    isHexDigit a = true ∧ isHexDigit b = true := by
  unfold pctScalarCore at h
  by_cases hx : (isHexDigit a && isHexDigit b) = true
  · simpa using hx
  · rw [if_neg hx] at h
    exact absurd h (by simp)

theorem pctScalarCore_wellPct {a b : Char} {r1 : JSString} {V : Nat} {r : JSString}
    (h : pctScalarCore a b r1 = some (V, r)) : wellPct r1 = wellPct r := by
  unfold pctScalarCore at h
  by_cases hx : (isHexDigit a && isHexDigit b) = true
  case neg => rw [if_neg hx] at h; exact absurd h (by simp)
  rw [if_pos hx] at h
  dsimp only at h
  split_ifs at h with h1 h2 h3 h4 h5
  · simp only [Option.some.injEq, Prod.mk.injEq] at h
    obtain ⟨-, rfl⟩ := h
    rfl
  · rcases hct : contTriple r1 with _ | ⟨b1, r2⟩ <;> rw [hct] at h <;> dsimp only at h
    · exact absurd h (by simp)
    · have hw2 := contTriple_wellPct hct
      split_ifs at h with hV
      simp only [Option.some.injEq, Prod.mk.injEq] at h
      obtain ⟨-, rfl⟩ := h
      exact hw2
  · rcases hct : contTriple r1 with _ | ⟨b1, r2⟩ <;> rw [hct] at h <;> dsimp only at h
    · exact absurd h (by simp)
    · have hw2 := contTriple_wellPct hct
      rcases hct2 : contTriple r2 with _ | ⟨b2, r3⟩ <;> rw [hct2] at h <;> dsimp only at h
      · exact absurd h (by simp)
      · have hw3 := contTriple_wellPct hct2
        split_ifs at h with hV
        simp only [Option.some.injEq, Prod.mk.injEq] at h
        obtain ⟨-, rfl⟩ := h
        rw [hw2, hw3]
  · rcases hct : contTriple r1 with _ | ⟨b1, r2⟩ <;> rw [hct] at h <;> dsimp only at h
    · exact absurd h (by simp)
    · have hw2 := contTriple_wellPct hct
      rcases hct2 : contTriple r2 with _ | ⟨b2, r3⟩ <;> rw [hct2] at h <;> dsimp only at h
      · exact absurd h (by simp)
      · have hw3 := contTriple_wellPct hct2
        rcases hct3 : contTriple r3 with _ | ⟨b3, r4⟩ <;> rw [hct3] at h <;> dsimp only at h
        · exact absurd h (by simp)
        · have hw4 := contTriple_wellPct hct3
          split_ifs at h with hV
          simp only [Option.some.injEq, Prod.mk.injEq] at h
          obtain ⟨-, rfl⟩ := h
          rw [hw2, hw3, hw4]

theorem decodeFuel_some_wellPct : ∀ (f : Nat) (l : JSString) (d : JSString),
    decodeFuel f l = some d → wellPct l = true := by
  intro f
  induction f with
  | zero =>
    intro l d h
    match l with
    | [] => rfl
    | c :: r => simp [decodeFuel] at h
  | succ f ih =>
    intro l d h
    match l with
    | [] => rfl
    | c :: rest =>
      have h' : decodeStep (decodeFuel f) c rest = some d := h
      unfold decodeStep at h'
      by_cases hc : c = '%'
      · rw [if_pos hc] at h'
        rcases hp : pctScalar rest with _ | ⟨V, r⟩ <;> rw [hp] at h' <;> dsimp only at h'
        · exact absurd h' (by simp)
        · rcases hrec : decodeFuel f r with _ | d' <;> rw [hrec] at h'
          · simp at h'
          · subst hc
            match rest, hp with
            | [], hp => simp [pctScalar] at hp
            | [a], hp => simp [pctScalar] at hp
            | a :: b :: r1, hp =>
              rw [pctScalar_cons] at hp
              have hw := pctScalarCore_wellPct hp
              have hhex := pctScalarCore_hex hp
              have hr : wellPct r = true := ih r d' hrec
              show wellPct ('%' :: a :: b :: r1) = true
              rw [wellPct_pct, hhex.1, hhex.2, hw, hr]
              rfl
      · rw [if_neg hc] at h'
        rcases hrec : decodeFuel f rest with _ | d' <;> rw [hrec] at h'
        · simp at h'
        · have hr : wellPct rest = true := ih rest d' hrec
          show wellPct (c :: rest) = true
          rw [wellPct_cons_ne hc]
          exact hr

theorem wellPct_false_decode {l : JSString} (h : wellPct l = false) :
    decodeURIComponent l = none := by
  rcases hd : decodeURIComponent l with _ | d
  · rfl
  · have := decodeFuel_some_wellPct l.length l d hd
    rw [this] at h
    exact absurd h (by simp)

theorem map_slash_id (l : JSString) :
    List.map (fun c => if c = '/' then '/' else c) l = l := by
  induction l with
  | nil => rfl
  | cons a t ih =>
    dsimp only [List.map]
    rw [ih]
    by_cases ha : a = '/'
    · rw [if_pos ha, ha]
    · rw [if_neg ha]

theorem fsPath_core_eq (u : Uri) (conv : JSString → JSString) :
    conv (match u.path with
      | a :: c :: d :: r =>
        if a = '/' ∧ d = ':' ∧ driveLetterChar c = true then jsLowerChar c :: ':' :: r
        else u.path
      | _ => u.path) =
    (match u.path with
      | a :: c :: d :: r =>
        if a = '/' ∧ d = ':' ∧ 65 ≤ c.toNat ∧ c.toNat ≤ 122 then
          conv (jsLowerChar c :: ':' :: r)
        else conv u.path
      | _ => conv u.path) := by
  match hpath : u.path with
  | [] => rfl
  | [a] => rfl
  | [a, c] => rfl
  | a :: c :: d :: r =>
    dsimp only
    by_cases h : a = '/' ∧ d = ':' ∧ driveLetterChar c = true
    · have h' : a = '/' ∧ d = ':' ∧ 65 ≤ c.toNat ∧ c.toNat ≤ 122 := by
        obtain ⟨h1, h2, h3⟩ := h
        simp only [driveLetterChar, Bool.and_eq_true, decide_eq_true_eq] at h3
        exact ⟨h1, h2, h3.1, h3.2⟩
      rw [if_pos h, if_pos h']
    · have h' : ¬(a = '/' ∧ d = ':' ∧ 65 ≤ c.toNat ∧ c.toNat ≤ 122) := by
        rintro ⟨h1, h2, h3, h4⟩
        exact h ⟨h1, h2, by simp only [driveLetterChar, Bool.and_eq_true,
          decide_eq_true_eq]; exact ⟨h3, h4⟩⟩
      rw [if_neg h, if_neg h']

theorem fsPath_amended_eq (isW : Bool) (u : Uri) :
    Uri.fsPath isW u = fsPathAmended isW u := by
  cases isW with
  | false =>
    show (if u.authority ≠ [] ∧ u.scheme = ("file".toList) then
        '/' :: '/' :: (u.authority ++ u.path)
      else match u.path with
        | a :: c :: d :: r =>
          if a = '/' ∧ d = ':' ∧ driveLetterChar c = true then jsLowerChar c :: ':' :: r
          else u.path
        | _ => u.path) =
      (if u.scheme = ("file".toList) ∧ u.authority ≠ [] then
        List.map (fun c => if c = '/' then '/' else c) ('/' :: '/' :: (u.authority ++ u.path))
      else match u.path with
        | a :: c :: d :: r =>
          if a = '/' ∧ d = ':' ∧ 65 ≤ c.toNat ∧ c.toNat ≤ 122 then
            List.map (fun c => if c = '/' then '/' else c) (jsLowerChar c :: ':' :: r)
          else List.map (fun c => if c = '/' then '/' else c) u.path
        | _ => List.map (fun c => if c = '/' then '/' else c) u.path)
    simp only [map_slash_id]
    refine if_congr and_comm rfl ?_
    have := fsPath_core_eq u (fun l => l)
    simpa only [map_slash_id] using this
  | true =>
    show List.map (fun c => if c = '/' then '\\' else c)
        (if u.authority ≠ [] ∧ u.scheme = ("file".toList) then
          '/' :: '/' :: (u.authority ++ u.path)
        else match u.path with
          | a :: c :: d :: r =>
            if a = '/' ∧ d = ':' ∧ driveLetterChar c = true then jsLowerChar c :: ':' :: r
            else u.path
          | _ => u.path) =
      (if u.scheme = ("file".toList) ∧ u.authority ≠ [] then
        List.map (fun c => if c = '/' then '\\' else c) ('/' :: '/' :: (u.authority ++ u.path))
      else match u.path with
        | a :: c :: d :: r =>
          if a = '/' ∧ d = ':' ∧ 65 ≤ c.toNat ∧ c.toNat ≤ 122 then
            List.map (fun c => if c = '/' then '\\' else c) (jsLowerChar c :: ':' :: r)
          else List.map (fun c => if c = '/' then '\\' else c) u.path
        | _ => List.map (fun c => if c = '/' then '\\' else c) u.path)
    rw [apply_ite (List.map (fun c => if c = '/' then '\\' else c))]
    refine if_congr and_comm rfl ?_
    exact fsPath_core_eq u (List.map (fun c => if c = '/' then '\\' else c))

theorem findIdx_slash_gen (r : JSString) : ∀ (i k : Nat),
    List.findIdx? (fun c => c = '/') r i = some k →
    i ≤ k ∧ (r.drop (k - i)).head? = some '/' := by
  induction r with
  | nil =>
    intro i k h
    rw [List.findIdx?_nil] at h
    exact absurd h (by simp)
  | cons a t ih =>
    intro i k h
    rw [List.findIdx?_cons] at h
    split_ifs at h with ha
    · have hik : i = k := by
        injection h
      subst hik
      simp only [decide_eq_true_eq] at ha
      subst ha
      exact ⟨le_refl i, by simp⟩
    · obtain ⟨hik, hd⟩ := ih (i + 1) k h
      refine ⟨by omega, ?_⟩
      have he : k - i = (k - (i + 1)) + 1 := by omega
      rw [he]
      simpa using hd

theorem findIdx_slash {r : JSString} {k : Nat}
    (h : r.findIdx? (fun c => c = '/') = some k) :
    (r.drop k).head? = some '/' := by
  have := (findIdx_slash_gen r 0 k h).2
  simpa using this

theorem validate_file_head {A P : JSString} (hP : P.head? = some '/')
    (hnot : ¬(A = [] ∧ P.take 2 = ['/', '/'])) :
    Uri._validate ⟨("file".toList), A, P, [], []⟩ = none := by
  unfold Uri._validate
  dsimp only
  rw [if_neg (by rintro ⟨-, -, hh⟩; exact hh hP), if_neg hnot]

theorem fileSlashed_ok (p : JSString) (h : ¬ p.take 4 = ['/', '/', '/', '/']) :
    ∃ u : Uri, Uri.fileSlashed p = .ok u ∧ u.scheme = ("file".toList) ∧
      u.path.head? = some '/' := by
  unfold Uri.fileSlashed
  rcases p with _ | ⟨a, _ | ⟨b, r⟩⟩
  · exact ⟨⟨("file".toList), [], ['/'], [], []⟩, by decide, rfl, rfl⟩
  · dsimp only
    by_cases ha : a = '/'
    · subst ha
      exact ⟨⟨("file".toList), [], ['/'], [], []⟩, by decide, rfl, rfl⟩
    · refine ⟨⟨("file".toList), [], '/' :: a :: [], [], []⟩, ?_, rfl, rfl⟩
      rw [if_neg (by simpa using ha),
        validate_file_head (by rfl) (by rintro ⟨-, h2⟩; exact ha (by simpa using h2))]
  · dsimp only
    by_cases hab : a = '/' ∧ b = '/'
    · rw [if_pos hab]
      obtain ⟨rfl, rfl⟩ := hab
      rcases hf : r.findIdx? (fun c => c = '/') with _ | k <;> dsimp only
      · refine ⟨⟨("file".toList), r, ['/'], [], []⟩, ?_, rfl, rfl⟩
        rw [if_neg (by simp),
          validate_file_head (by rfl) (by rintro ⟨-, h2⟩; simp at h2)]
      · have hd : (r.drop k).head? = some '/' := findIdx_slash hf
        refine ⟨⟨("file".toList), r.take k, r.drop k, [], []⟩, ?_, rfl, hd⟩
        rw [if_pos hd, validate_file_head hd ?hnot]
        case hnot =>
          rintro ⟨h0, h2⟩
          have hk : k = 0 := by
            rcases List.take_eq_nil_iff.1 h0 with hk | hr
            · exact hk
            · rw [hr] at hd
              simp at hd
          subst hk
          rw [List.drop_zero] at h2
          apply h
          simp [List.take_succ_cons, h2]
    · rw [if_neg hab]
      dsimp only
      by_cases ha : a = '/'
      · subst ha
        rw [if_pos (show List.head? ('/' :: b :: r) = some '/' from rfl)]
        refine ⟨⟨("file".toList), [], '/' :: b :: r, [], []⟩, ?_, rfl, rfl⟩
        rw [validate_file_head (by rfl) (by rintro ⟨-, h2⟩; exact hab ⟨rfl, by simpa using h2⟩)]
      · rw [if_neg (by simpa using ha)]
        refine ⟨⟨("file".toList), [], '/' :: a :: b :: r, [], []⟩, ?_, rfl, rfl⟩
        rw [validate_file_head (by rfl) (by rintro ⟨-, h2⟩; exact ha (by simpa using h2))]

theorem posixNormalize_ne_nil (p : JSString) : posixNormalize p ≠ [] := by
  unfold posixNormalize
  dsimp only
  split_ifs <;> simp_all

theorem posixJoinMany_single {p : JSString} (hp : ¬ p = []) :
    posixJoinMany [p] = posixNormalize p := by
  unfold posixJoinMany
  have hf : List.filter (fun a => a ≠ []) [p] = [p] := by
    simp [List.filter, hp]
  rw [hf, if_neg (by simp)]
  rfl

theorem joinPath_nil {u : Uri} (hp : ¬ u.path = [])
    (hv : Uri.validOk ⟨u.scheme, u.authority, posixNormalize u.path, u.query,
      u.fragment⟩ = true) :
    Utils.joinPath u [] =
      .ok ⟨u.scheme, u.authority, posixNormalize u.path, u.query, u.fragment⟩ := by
  have hnn := posixNormalize_ne_nil u.path
  have hm : Uri.mergeChange u ⟨none, none, some (posixJoinMany [u.path]), none, none⟩ =
      ⟨u.scheme, u.authority, posixNormalize u.path, u.query, u.fragment⟩ := by
    unfold Uri.mergeChange
    dsimp only [jsOr]
    rw [posixJoinMany_single hp, if_neg hnn]
  unfold Utils.joinPath Uri.withE Uri.withRes
  dsimp only
  rw [hm]
  by_cases hveq : (⟨u.scheme, u.authority, posixNormalize u.path, u.query,
      u.fragment⟩ : Uri) = u
  · rw [if_pos hveq]
    dsimp only
    rw [hveq]
  · rw [if_neg hveq]
    have hvn : Uri._validate ⟨u.scheme, u.authority, posixNormalize u.path, u.query,
        u.fragment⟩ = none := by
      unfold Uri.validOk at hv
      exact Option.isNone_iff_eq_none.1 hv
    rw [hvn]

theorem mergeChange_self {u : Uri} {ch : UriChange} (h : providedEq ch u) :
    Uri.mergeChange u ch = u := by
  obtain ⟨h1, h2, h3, h4, h5⟩ := h
  have f1 : jsOr ch.scheme u.scheme = u.scheme := by
    rcases h1 with h1 | h1 <;> rw [h1]
    · rfl
    · dsimp only [jsOr]
      exact ite_self _
  have f2 : jsOr ch.authority u.authority = u.authority := by
    rcases h2 with h2 | h2 <;> rw [h2]
    · rfl
    · dsimp only [jsOr]
      exact ite_self _
  have f3 : jsOr ch.path u.path = u.path := by
    rcases h3 with h3 | h3 <;> rw [h3]
    · rfl
    · dsimp only [jsOr]
      exact ite_self _
  have f4 : jsOr ch.query u.query = u.query := by
    rcases h4 with h4 | h4 <;> rw [h4]
    · rfl
    · dsimp only [jsOr]
      exact ite_self _
  have f5 : jsOr ch.fragment u.fragment = u.fragment := by
    rcases h5 with h5 | h5 <;> rw [h5]
    · rfl
    · dsimp only [jsOr]
      exact ite_self _
  unfold Uri.mergeChange
  rw [f1, f2, f3, f4, f5]

theorem withRes_provided {u : Uri} {ch : UriChange} (h : providedEq ch u) :
    Uri.withRes u (some ch) = .same := by
  unfold Uri.withRes
  dsimp only
  rw [mergeChange_self h, if_pos rfl]

theorem parse_valid {s : JSString} {u : Uri} (h : Uri.parse s = .ok u) :
    Uri.validOk u = true := by
  unfold Uri.parse at h
  dsimp only at h
  rcases hda : decodeURIComponent (Uri._parseComponents s).authority with _ | a <;>
    rw [hda] at h <;> try dsimp only at h
  · exact absurd h (by simp)
  rcases hdp : decodeURIComponent (Uri._parseComponents s).path with _ | p <;>
    rw [hdp] at h <;> try dsimp only at h
  · exact absurd h (by simp)
  rcases hdq : decodeURIComponent (Uri._parseComponents s).query with _ | q <;>
    rw [hdq] at h <;> try dsimp only at h
  · exact absurd h (by simp)
  rcases hdf : decodeURIComponent (Uri._parseComponents s).fragment with _ | f <;>
    rw [hdf] at h <;> try dsimp only at h
  · exact absurd h (by simp)
  rcases hv : Uri._validate ⟨(Uri._parseComponents s).scheme, a, p, q, f⟩ with _ | e <;>
    rw [hv] at h <;> dsimp only at h
  · injection h with h
    subst h
    unfold Uri.validOk
    rw [hv]
    rfl
  · exact absurd h (by simp)

theorem withE_valid {u : Uri} {ch : Option UriChange} {v : Uri}
    (hu : Uri.validOk u = true) (h : Uri.withE u ch = .ok v) : Uri.validOk v = true := by
  unfold Uri.withE Uri.withRes at h
  rcases ch with _ | c
  · dsimp only at h
    injection h with h
    exact h ▸ hu
  · dsimp only at h
    by_cases he : Uri.mergeChange u c = u
    · rw [if_pos he] at h
      dsimp only at h
      injection h with h
      exact h ▸ hu
    · rw [if_neg he] at h
      rcases hv : Uri._validate (Uri.mergeChange u c) with _ | e <;> rw [hv] at h <;>
        dsimp only at h
      · injection h with h
        subst h
        unfold Uri.validOk
        rw [hv]
        rfl
      · exact absurd h (by simp)

theorem fromC_valid {ch : Option UriChange} {v : Uri} (h : Uri.fromC ch = .ok v) :
    Uri.validOk v = true := by
  rcases ch with _ | c
  · exact absurd h (by simp [Uri.fromC])
  · exact withE_valid (by decide) h

-- ---------------------------------------------------------------------
-- The claims
-- ---------------------------------------------------------------------

/-- C1: for round-trippable URI values (valid, scheme free of
delimiters, well-behaved authority tail, no relative `file` path, no
crashing drive prefix) serializing, parsing the result and serializing
again yields the very same string.  The unrestricted claim fails:
`toString` can throw on constructor-obtainable values (see the
counterexample). -/
theorem C1_string_roundtrip (u : Uri) (hRT : RTgood u) :
    ∃ F, Uri.toString u false = .ok F ∧
      ∃ v, Uri.parse F = .ok v ∧ Uri.toString v false = .ok F := by
  have hdrive := hRT.2.2.2.2
  refine ⟨_, toString_ok hdrive, Uri.canon u, ?_, ?_⟩
  · have h := parse_format u hRT
    simpa [List.append_assoc] using h
  · rw [toString_canon hdrive]
    exact toString_ok hdrive

/-- C1 witness: the round trip evaluated on `http://ab/A/c`. -/
theorem C1_string_roundtrip_witness :
    RTgood ⟨("http".toList), ("ab".toList), ("/A/c".toList), [], []⟩ ∧
    ∃ F, Uri.toString ⟨("http".toList), ("ab".toList), ("/A/c".toList), [], []⟩ false =
        .ok F ∧ ∃ v, Uri.parse F = .ok v ∧ Uri.toString v false = .ok F :=
  ⟨by decide, C1_string_roundtrip _ (by decide)⟩

/-- C1 counterexample: `from({path:'C:/x'})` is a valid constructor
result, but serializing it throws the `_upperCaseDrive` TypeError, so
`parse(u.toString()).toString() == u.toString()` fails for it. -/
theorem C1_counterexample :
    Uri.fromC (some ⟨none, none, some ("C:/x".toList), none, none⟩) =
      .ok ⟨[], [], ("C:/x".toList), [], []⟩ ∧
    Uri.toString ⟨[], [], ("C:/x".toList), [], []⟩ false = .error driveTypeErrMsg := by
  decide

/-- C2: formatting then parsing a round-trippable value yields its
canonical form - authority lower-cased and a leading upper-case drive
letter lower-cased - not necessarily the identical components. -/
theorem C2_format_parse (u : Uri) (hRT : RTgood u) :
    ∃ F, Uri.toString u false = .ok F ∧ Uri.parse F = .ok (Uri.canon u) := by
  refine ⟨_, toString_ok hRT.2.2.2.2, ?_⟩
  have h := parse_format u hRT
  simpa [List.append_assoc] using h

/-- C2 witness: the format/parse cycle evaluated on `file:///a/b`. -/
theorem C2_format_parse_witness :
    RTgood ⟨("file".toList), [], ("/a/b".toList), [], []⟩ ∧
    ∃ F, Uri.toString ⟨("file".toList), [], ("/a/b".toList), [], []⟩ false = .ok F ∧
      Uri.parse F = .ok (Uri.canon ⟨("file".toList), [], ("/a/b".toList), [], []⟩) :=
  ⟨by decide, C2_format_parse _ (by decide)⟩

/-- C2 counterexample: the constructor-obtainable value with authority
`A` comes back from the format/parse cycle with authority `a`; the five
components are not structurally equal. -/
theorem C2_counterexample :
    Uri.fromC (some ⟨some ("http".toList), some ("A".toList), some ("/".toList),
      none, none⟩) = .ok ⟨("http".toList), ("A".toList), ("/".toList), [], []⟩ ∧
    Uri.toString ⟨("http".toList), ("A".toList), ("/".toList), [], []⟩ false =
      .ok ("http://a/".toList) ∧
    Uri.parse ("http://a/".toList) =
      .ok ⟨("http".toList), ("a".toList), ("/".toList), [], []⟩ ∧
    ¬ ("a".toList) = ("A".toList) := by decide

/-- C3: the construction paths `parse`, `with` (from a valid receiver)
and `from` only return values satisfying the I1/I2 invariants - a
violation is fatal to the call - and `parse('file:////shares/files/p.cs')`
raises the I2 error. -/
theorem C3_validation_raises :
    (∀ s u, Uri.parse s = .ok u → Uri.validOk u = true) ∧
    (∀ (u : Uri) (ch : Option UriChange) (v : Uri), Uri.validOk u = true →
      Uri.withE u ch = .ok v → Uri.validOk v = true) ∧
    (∀ ch v, Uri.fromC ch = .ok v → Uri.validOk v = true) ∧
    Uri.parse ("file:////shares/files/p.cs".toList) = .error i2Msg :=
  ⟨fun _ _ h => parse_valid h, fun _ _ _ hu h => withE_valid hu h,
    fun _ _ h => fromC_valid h, by decide⟩

/-- C3 witness: the parse clause evaluated on `a:b`. -/
theorem C3_validation_raises_witness :
    Uri.validOk ⟨("a".toList), [], ("b".toList), [], []⟩ = true :=
  C3_validation_raises.1 ("a:b".toList) _ (by decide)

/-- C4: a malformed percent sequence in the path capture makes `parse`
raise the `URIError` of `decodeURIComponent`; it is not passed through
unchanged. -/
theorem C4_malformed_raises (s : JSString)
    (h : wellPct (Uri._parseComponents s).path = false) :
    Uri.parse s = .error uriMalformedMsg := by
  unfold Uri.parse
  dsimp only
  rw [wellPct_false_decode h]
  rcases decodeURIComponent (Uri._parseComponents s).authority with _ | a <;>
    rcases decodeURIComponent (Uri._parseComponents s).query with _ | q <;>
      rcases decodeURIComponent (Uri._parseComponents s).fragment with _ | f <;> rfl

/-- C4 witness: the malformed-input clause evaluated on `x:%zz`. -/
theorem C4_malformed_raises_witness :
    wellPct (Uri._parseComponents ("x:%zz".toList)).path = false ∧
    Uri.parse ("x:%zz".toList) = .error uriMalformedMsg :=
  ⟨by decide, C4_malformed_raises ("x:%zz".toList) (by decide)⟩

/-- C4 counterexample: `parse('x:%zz')` raises instead of returning a
value with the malformed sequence passed through. -/
theorem C4_counterexample :
    Uri.parse ("x:%zz".toList) = .error uriMalformedMsg := by decide

/-- C5: the force-escape of bare `#`/`?` inside a path segment uses
`.replace(/[#?]/, ...)` without the global flag, so only the first
occurrence per segment is escaped: with `skipEncoding` the serialized
path keeps a bare `#`, contradicting the specified behaviour. -/
theorem C5_code_bug :
    Uri.toString ⟨("s".toList), [], ("/a#b#".toList), [], []⟩ true =
      .ok ("s:/a%23b#".toList) ∧ '#' ∈ ("s:/a%23b#".toList) := by decide

/-- C6: `fsPath` equals the amended transform: the UNC join requires
scheme `file` (not any scheme), the drive-letter case drops the leading
slash, and the letter class is the source's `[a-zA-z]` (ASCII 65-122). -/
theorem C6_fsPath_amended (isW : Bool) (u : Uri) :
    Uri.fsPath isW u = fsPathAmended isW u :=
  fsPath_amended_eq isW u

/-- C6 counterexample: a non-`file` scheme with authority is not
UNC-joined, and the drive-letter path loses its leading slash -
`parse('file:///c:/test/me').fsPath` is `c:/test/me`, not
`/c:/test/me`. -/
theorem C6_counterexample :
    Uri.fsPath false ⟨("x".toList), ("h".toList), ("/p".toList), [], []⟩ =
      ("/p".toList) ∧
    fsPathClaimed false ⟨("x".toList), ("h".toList), ("/p".toList), [], []⟩ =
      ("//h/p".toList) ∧
    Uri.fsPath false ⟨("file".toList), [], ("/c:/test/me".toList), [], []⟩ =
      ("c:/test/me".toList) ∧
    fsPathClaimed false ⟨("file".toList), [], ("/c:/test/me".toList), [], []⟩ =
      ("/c:/test/me".toList) := by decide

/-- C7: `file` succeeds with scheme `file` and an absolute path for
every input whose slash-normalized form does not begin with four
slashes; on `'////...'` inputs it raises I2 (see the counterexample),
so the unrestricted claim fails. -/
theorem C7_file_ok (s : JSString)
    (h : ¬ ((s.map (fun c => if c = '\\' then '/' else c)).take 4 =
      ['/', '/', '/', '/'])) :
    ∃ u : Uri, Uri.file s = .ok u ∧ u.scheme = ("file".toList) ∧
      u.path.head? = some '/' := by
  unfold Uri.file
  exact fileSlashed_ok _ h

/-- C7 witness: `file` evaluated on a Windows-style path. -/
theorem C7_file_ok_witness :
    ∃ u : Uri, Uri.file ("c:\\win\\path".toList) = .ok u ∧
      u.scheme = ("file".toList) ∧ u.path.head? = some '/' :=
  C7_file_ok ("c:\\win\\path".toList) (by decide)

/-- C7 counterexample: `file('////x')` raises the I2 validation error
instead of succeeding. -/
theorem C7_counterexample : Uri.file ("////x".toList) = .error i2Msg := by decide

/-- C8: `with(null)` and a change whose provided fields all equal the
current ones return the identical instance (no allocation). -/
theorem C8_with_identity (u : Uri) (ch : UriChange) (h : providedEq ch u) :
    Uri.withRes u none = .same ∧ Uri.withRes u (some ch) = .same :=
  ⟨rfl, withRes_provided h⟩

/-- C8 witness: the identity return evaluated on `a:b` with the empty
change record. -/
theorem C8_with_identity_witness :
    Uri.withRes ⟨("a".toList), [], ("b".toList), [], []⟩ none = .same ∧
    Uri.withRes ⟨("a".toList), [], ("b".toList), [], []⟩
      (some ⟨none, none, none, none, none⟩) = .same :=
  C8_with_identity _ _ (by decide)

/-- C9: `joinPath(uri)` with zero extra segments rewrites the path to
its POSIX normalization, keeping the other four components, whenever
the path is non-empty and the normalized value still validates; with an
authority and an empty path it raises I1 instead (see the
counterexample), so the unrestricted claim fails. -/
theorem C9_joinPath_norm (u : Uri) (hp : ¬ u.path = [])
    (hv : Uri.validOk ⟨u.scheme, u.authority, posixNormalize u.path, u.query,
      u.fragment⟩ = true) :
    Utils.joinPath u [] =
      .ok ⟨u.scheme, u.authority, posixNormalize u.path, u.query, u.fragment⟩ :=
  joinPath_nil hp hv

/-- C9 witness: the zero-segment join evaluated on `http://a/x/./y`. -/
theorem C9_joinPath_norm_witness :
    Utils.joinPath ⟨("http".toList), ("a".toList), ("/x/./y".toList), [], []⟩ [] =
      .ok ⟨("http".toList), ("a".toList), posixNormalize ("/x/./y".toList), [], []⟩ :=
  C9_joinPath_norm ⟨("http".toList), ("a".toList), ("/x/./y".toList), [], []⟩
    (by decide) (by decide)

/-- C9 counterexample: with a non-empty authority and an empty path,
`joinPath(uri)` raises the I1 error (`posix.join('')` is `'.'`). -/
theorem C9_counterexample :
    Utils.joinPath ⟨("http".toList), ("a".toList), [], [], []⟩ [] =
      .error i1Msg := by decide

/-- C10: `%2F` decodes to a structural `/` - in general a `%2F`-escape
prefixes a decoded slash - so `parse('file:///a%2Fb')` equals
`parse('file:///a/b')` and subsequent formatting treats the decoded
slash as a segment boundary. -/
theorem C10_encoded_slash :
    (∀ t : JSString, decodeURIComponent ('%' :: '2' :: 'F' :: t) =
      (decodeURIComponent t).map (fun r => '/' :: r)) ∧
    (Uri.parse ("file:///a%2Fb".toList)).map Uri.path = .ok ("/a/b".toList) ∧
    Uri.parse ("file:///a%2Fb".toList) = Uri.parse ("file:///a/b".toList) ∧
    (Uri.parse ("file:///a%2Fb".toList)).bind (fun u => Uri.toString u false) =
      .ok ("file:///a/b".toList) := by
  refine ⟨?_, by decide, by decide, by decide⟩
  intro t
  have h : pctScalar ('2' :: 'F' :: t) = some (47, t) := rfl
  rw [decode_pct h, show Char.ofNat 47 = '/' from by decide]
